import Mathlib

/-!
Shallow embedding of `packages/mongo-livedata/oplog_observe_driver.js`
(the Meteor oplog observe driver).

Modelling conventions:
* A document is a flat association list from field names to values; a value
  is either a number or a one-level sub-object (enough for update modifiers
  such as set/unset payloads and for EJSON-marker field names).
* The id-indexed Min/Max heaps (`MinMaxHeap`, `MaxHeap`, `LocalCollection._IdMap`)
  are modelled as association lists from ids to documents; `set` replaces,
  `maxElementId`/`minElementId` pick an extremum of the stored documents under
  the driver's comparator (ties resolved to the first occurrence, a refinement
  of the external heap which returns an unspecified extremum).
* A JavaScript `throw` is modelled as `Option.none`; every driver method that
  can throw returns `Option DState`.
* Asynchronous work (`Meteor.defer` bodies, fetch completions, the fence
  callback) is modelled as separate trace actions; within an action the code
  runs sequentially, which matches the driver's no-yield discipline.
* External collaborators that are not part of the source file (the matcher,
  the projection functions, the comparator produced by `Minimongo.Sorter`)
  are opaque parameters in `Config`.
-/

namespace Oplog

/-- A document field value: a number, or a one-level object (used for modifier
payloads such as the fields under a set/unset operator). -/
inductive OVal where
  | num (n : Int)
  | obj (fs : List (String × Int))
deriving DecidableEq, Repr

/-- A document: a flat association list from field names to values. -/
abbrev Doc := List (String × OVal)

/-- Ids of documents (`_id` values); modelled as integers. -/
abbrev DocId := Int

/-- Field lookup in a document. -/
def dGet (d : Doc) (k : String) : Option OVal :=
  (d.find? (fun kv => kv.1 == k)).map (fun kv => kv.2)

/-- Does the document have the field `k`? -/
def dHasKey (d : Doc) (k : String) : Bool :=
  d.any (fun kv => kv.1 == k)

/-- Set field `k` to `v` (replace semantics, as JavaScript assignment). -/
def dSet (d : Doc) (k : String) (v : OVal) : Doc :=
  d.filter (fun kv => kv.1 != k) ++ [(k, v)]

/-- Delete field `k` (JavaScript `delete doc[k]`). -/
def dDelete (d : Doc) (k : String) : Doc :=
  d.filter (fun kv => kv.1 != k)

/-- The `_id` of a document (`doc._id`); defaults to 0 when absent, which the
driver never relies on. -/
def docIdOf (d : Doc) : DocId :=
  match dGet d "_id" with
  | some (OVal.num n) => n
  | _ => 0

/-- An id-indexed heap / id map: an association list from ids to documents. -/
abbrev HeapT := List (DocId × Doc)

/-- Heap lookup (`heap.get(id)`). -/
def hGet (h : HeapT) (i : DocId) : Option Doc :=
  (h.find? (fun e => e.1 == i)).map (fun e => e.2)

/-- Heap membership (`heap.has(id)`). -/
def hHas (h : HeapT) (i : DocId) : Bool :=
  h.any (fun e => e.1 == i)

/-- Heap insertion with replace semantics (`heap.set(id, doc)`). -/
def hSet (h : HeapT) (i : DocId) (d : Doc) : HeapT :=
  h.filter (fun e => e.1 != i) ++ [(i, d)]

/-- Heap removal (`heap.remove(id)`). -/
def hRemove (h : HeapT) (i : DocId) : HeapT :=
  h.filter (fun e => e.1 != i)

/-- One comparison step of the maximum scan: keep the candidate unless the
new entry's document is strictly greater under `cmp`. -/
def pickMax (cmp : Doc → Doc → Int) (acc : Option (DocId × Doc))
    (e : DocId × Doc) : Option (DocId × Doc) :=
  match acc with
  | none => some e
  | some m => if cmp e.2 m.2 > 0 then some e else some m

/-- One comparison step of the minimum scan. -/
def pickMin (cmp : Doc → Doc → Int) (acc : Option (DocId × Doc))
    (e : DocId × Doc) : Option (DocId × Doc) :=
  match acc with
  | none => some e
  | some m => if cmp e.2 m.2 < 0 then some e else some m

/-- The entry holding a maximal document under the comparator `cmp`
(first such entry on ties). -/
def maxEltEntry (cmp : Doc → Doc → Int) (h : HeapT) : Option (DocId × Doc) :=
  h.foldl (pickMax cmp) none

/-- The entry holding a minimal document under the comparator `cmp`. -/
def minEltEntry (cmp : Doc → Doc → Int) (h : HeapT) : Option (DocId × Doc) :=
  h.foldl (pickMin cmp) none

/-- Heap `maxElementId()`. -/
def maxElementId (cmp : Doc → Doc → Int) (h : HeapT) : Option DocId :=
  (maxEltEntry cmp h).map (fun e => e.1)

/-- Heap `minElementId()`. -/
def minElementId (cmp : Doc → Doc → Int) (h : HeapT) : Option DocId :=
  (minEltEntry cmp h).map (fun e => e.1)

/-- The three phases of the driver (`PHASE.QUERYING / FETCHING / STEADY`). -/
inductive Phase where
  | querying
  | fetching
  | steady
deriving DecidableEq, Repr

/-- Observable events produced by the driver: the multiplexer callbacks
`added/changed/removed/ready`, the registration of a `multiplexer.onFlush`
callback that commits a batch of write tokens, and a direct
`write.committed()` call. -/
inductive Emit where
  | added (i : DocId) (fields : Doc)
  | changed (i : DocId) (fields : Doc)
  | removed (i : DocId)
  | ready
  | flushCommit (ws : List Nat)
  | committed (w : Nat)
deriving DecidableEq, Repr

/-- The opaque external collaborators of the driver, fixed at construction:
the limit, the sorter comparator, the matcher predicates, and the two
compiled projections. -/
structure Config where
  limit : Nat
  cmp : Doc → Doc → Int
  docMatches : Doc → Bool
  canBecomeTrueByModifier : Doc → Bool
  projFn : Doc → Doc
  sharedProjFn : Doc → Doc

/-- The driver's mutable state, plus the trace `out` of everything it has
emitted so far. `writesToCommitWhenWeReachSteady = []` stands for both the
empty array and the `null` that `stop` leaves behind. -/
structure DState where
  phase : Phase
  published : HeapT
  buffer : HeapT
  safeAppendToBuffer : Bool
  needToFetch : List (DocId × Nat)
  currentlyFetching : Option (List (DocId × Nat))
  fetchGeneration : Nat
  requeryWhenDoneThisQuery : Bool
  writesToCommitWhenWeReachSteady : List Nat
  stopped : Bool
  out : List Emit
deriving DecidableEq, Repr

/-- Map update for `needToFetch` (`idMap.set(id, ts)`). -/
def nSet (m : List (DocId × Nat)) (i : DocId) (t : Nat) : List (DocId × Nat) :=
  m.filter (fun e => e.1 != i) ++ [(i, t)]

/-- Map membership for `needToFetch` (`idMap.has(id)`). -/
def nHas (m : List (DocId × Nat)) (i : DocId) : Bool :=
  m.any (fun e => e.1 == i)

/-- The driver's state right after the constructor ran: phase QUERYING,
empty caches, `safeAppendToBuffer = false`, generation 0. -/
def initState : DState :=
  { phase := Phase.querying
    published := []
    buffer := []
    safeAppendToBuffer := false
    needToFetch := []
    currentlyFetching := none
    fetchGeneration := 0
    requeryWhenDoneThisQuery := false
    writesToCommitWhenWeReachSteady := []
    stopped := false
    out := [] }

/-- Sync part of `_pollQuery` (lines 544-554): forget pending fetches, bump
the generation so in-flight fetches are ignored, and go to QUERYING. The
deferred re-query body is the separate `pollQueryBody`. -/
def pollQuerySync (s : DState) : DState :=
  if s.stopped then s
  else
    { s with
      needToFetch := []
      currentlyFetching := none
      fetchGeneration := s.fetchGeneration + 1
      phase := Phase.querying }

/-- Translation of `_needToPollQuery` (lines 582-597): poll now unless a
query is already running, in which case request a requery afterwards. -/
def needToPollQuery (s : DState) : DState :=
  if s.stopped then s
  else if s.phase != Phase.querying then pollQuerySync s
  else { s with requeryWhenDoneThisQuery := true }

/-- Translation of `_addBuffered` (lines 205-219): store the shared-projected
document; on overflow evict the buffer maximum and clear
`safeAppendToBuffer`. -/
def addBuffered (cfg : Config) (i : DocId) (d : Doc) (s : DState) : DState :=
  let buf1 := hSet s.buffer i (cfg.sharedProjFn d)
  if buf1.length > cfg.limit then
    match maxElementId cfg.cmp buf1 with
    | some mId =>
        { s with buffer := hRemove buf1 mId, safeAppendToBuffer := false }
    | none => { s with buffer := buf1 }   -- unreachable: an overflowing heap is nonempty
  else { s with buffer := buf1 }

/-- Translation of `_removeBuffered` (lines 222-230): remove, and schedule a
repoll as soon as the buffer empties while `safeAppendToBuffer` is false. -/
def removeBuffered (cfg : Config) (i : DocId) (s : DState) : DState :=
  let s1 := { s with buffer := hRemove s.buffer i }
  if s1.buffer.length == 0 && !s1.safeAppendToBuffer then needToPollQuery s1
  else s1

/-- Translation of `_addPublished` (lines 143-173): store the
shared-projected document, emit `added` with the `_id`-stripped publish
projection, then on overflow check that exactly one document overflows and
that it is not the one just added, evict it with a `removed` emission, and
move it to the buffer. -/
def addPublished (cfg : Config) (i : DocId) (d : Doc) (s : DState) :
    Option DState :=
  let fields := dDelete d "_id"
  let pub1 := hSet s.published i (cfg.sharedProjFn d)
  let s1 := { s with
    published := pub1
    out := s.out ++ [Emit.added i (cfg.projFn fields)] }
  if cfg.limit != 0 && pub1.length > cfg.limit then
    if pub1.length != cfg.limit + 1 then none
    else
      match maxElementId cfg.cmp pub1 with
      | none => none
      | some ovId =>
          match hGet pub1 ovId with
          | none => none
          | some ovDoc =>
              if ovId == i then none
              else
                some (addBuffered cfg ovId ovDoc
                  { s1 with
                    published := hRemove pub1 ovId
                    out := s1.out ++ [Emit.removed ovId] })
  else some s1

/-- Translation of `_removePublished` (lines 174-196): remove and emit
`removed`; for limited queries promote the buffer minimum, or throw when the
buffer is unexpectedly empty outside QUERYING. -/
def removePublished (cfg : Config) (i : DocId) (s : DState) : Option DState :=
  let s1 := { s with
    published := hRemove s.published i
    out := s.out ++ [Emit.removed i] }
  if cfg.limit == 0 then some s1
  else if s1.published.length < cfg.limit then
    if s1.buffer.length == 0 then
      if !s1.safeAppendToBuffer && s1.phase != Phase.querying then none
      else some s1
    else
      match minElementId cfg.cmp s1.buffer with
      | none => none
      | some nId =>
          match hGet s1.buffer nId with
          | none => none
          | some nDoc => addPublished cfg nId nDoc (removeBuffered cfg nId s1)
  else some s1

/-- Modelled from the spec: minimongo's `LocalCollection._makeChangedFields`
is not part of src/; per the spec `changePublished` "computes the diff of
publish-projected fields; emits `multiplexer.changed(id, diff)` iff diff is
non-empty". We model the diff as the fields of the new document whose value
differs from the old one. -/
def makeChangedFields (newDoc : Doc) (oldDoc : Option Doc) : Doc :=
  match oldDoc with
  | none => newDoc
  | some od => newDoc.filter (fun kv => dGet od kv.1 != some kv.2)

/-- Translation of `_changePublished` (lines 197-204): update the stored
document and emit `changed` with the projected diff iff it is non-empty. -/
def changePublished (cfg : Config) (i : DocId) (oldDoc : Option Doc)
    (newDoc : Doc) (s : DState) : DState :=
  let s1 := { s with published := hSet s.published i (cfg.sharedProjFn newDoc) }
  let ch := cfg.projFn (makeChangedFields newDoc oldDoc)
  if ch.isEmpty then s1
  else { s1 with out := s1.out ++ [Emit.changed i ch] }

/-- Evaluation of `comparator(doc, other) < 0` where `other` may be the
JavaScript `null`/`undefined`; every use site either guards the comparison or
treats the absent case as falsy. -/
def cmpLt (cfg : Config) (d : Doc) (m : Option Doc) : Bool :=
  match m with
  | some mm => cfg.cmp d mm < 0
  | none => false

/-- Evaluation of `comparator(doc, other) <= 0` with an optional right side,
as `cmpLt`. -/
def cmpLe (cfg : Config) (d : Doc) (m : Option Doc) : Bool :=
  match m with
  | some mm => cfg.cmp d mm ≤ 0
  | none => false

/-- Shorthand for `heap.get(heap.maxElementId())`. -/
def heapMaxDoc (cfg : Config) (h : HeapT) : Option Doc :=
  (maxElementId cfg.cmp h).bind (hGet h)

/-- Shorthand for `heap.get(heap.minElementId())`. -/
def heapMinDoc (cfg : Config) (h : HeapT) : Option Doc :=
  (minElementId cfg.cmp h).bind (hGet h)

/-- The stored document at `published.maxElementId()`, guarded as at line 244:
`null` for unlimited queries or an empty heap. -/
def maxPublishedDoc (cfg : Config) (s : DState) : Option Doc :=
  if cfg.limit != 0 && s.published.length > 0 then heapMaxDoc cfg s.published
  else none

/-- The stored document at `unpublishedBuffer.maxElementId()`, guarded as at
line 246. -/
def maxBufferedDoc (cfg : Config) (s : DState) : Option Doc :=
  if cfg.limit != 0 && s.buffer.length > 0 then heapMaxDoc cfg s.buffer
  else none

/-- Translation of `_addMatching` (lines 234-275): publish, buffer, or drop a
newly matching document, throwing if its id is already cached. -/
def addMatching (cfg : Config) (d : Doc) (s : DState) : Option DState :=
  let i := docIdOf d
  if hHas s.published i then none
  else if cfg.limit != 0 && hHas s.buffer i then none
  else
    let toPublish : Bool :=
      cfg.limit == 0 || s.published.length < cfg.limit ||
        cmpLt cfg d (maxPublishedDoc cfg s)
    let canAppendToBuffer : Bool :=
      !toPublish && s.safeAppendToBuffer && s.buffer.length < cfg.limit
    let canInsertIntoBuffer : Bool :=
      !toPublish && cmpLe cfg d (maxBufferedDoc cfg s)
    if toPublish then addPublished cfg i d s
    else if canAppendToBuffer || canInsertIntoBuffer then
      some (addBuffered cfg i d s)
    else some { s with safeAppendToBuffer := false }

/-- Translation of `_removeMatching` (lines 279-289): dispatch to
`removePublished` or `removeBuffered`; an uncached id throws only for
unlimited queries. -/
def removeMatching (cfg : Config) (i : DocId) (s : DState) : Option DState :=
  if !hHas s.published i && cfg.limit == 0 then none
  else if hHas s.published i then removePublished cfg i s
  else if hHas s.buffer i then some (removeBuffered cfg i s)
  else some s

/-- The stored buffer minimum of line 307: `null` for unlimited queries or an
empty buffer. -/
def minBufferedDoc (cfg : Config) (s : DState) : Option Doc :=
  if cfg.limit != 0 && s.buffer.length != 0 then heapMinDoc cfg s.buffer
  else none

/-- The stored buffer maximum of line 347, guarded only by non-emptiness. -/
def maxBufferedDocNE (cfg : Config) (b : HeapT) : Option Doc :=
  if b.length != 0 then heapMaxDoc cfg b else none

/-- Translation of `_handleDoc` (lines 290-369): reclassify an id given its
new contents (or `none` when the document no longer exists). -/
def handleDoc (cfg : Config) (i : DocId) (newDoc : Option Doc) (s : DState) :
    Option DState :=
  let publishedBefore := hHas s.published i
  let bufferedBefore := cfg.limit != 0 && hHas s.buffer i
  let cachedBefore := publishedBefore || bufferedBefore
  match newDoc with
  | none => if cachedBefore then removeMatching cfg i s else some s
  | some nd =>
    if cfg.docMatches nd then
      if !cachedBefore then addMatching cfg nd s
      else
        let oldDoc := hGet s.published i
        if publishedBefore then
          let staysInPublished : Bool :=
            cfg.limit == 0 || s.buffer.length == 0 ||
              cmpLe cfg nd (minBufferedDoc cfg s)
          if staysInPublished then
            some (changePublished cfg i oldDoc nd s)
          else
            (removePublished cfg i s).bind (fun s1 =>
              let toBuffer : Bool :=
                s1.safeAppendToBuffer || cmpLe cfg nd (heapMaxDoc cfg s1.buffer)
              if toBuffer then some (addBuffered cfg i nd s1)
              else some { s1 with safeAppendToBuffer := false })
        else
          -- bufferedBefore: remove the old version manually so no repoll fires
          let s0 := { s with buffer := hRemove s.buffer i }
          match heapMaxDoc cfg s0.published with
          | none => none   -- `maxElementId` of an empty published heap blows up
          | some maxPublished =>
              let toPublish : Bool := cfg.cmp nd maxPublished < 0
              let staysInBuffer : Bool :=
                (!toPublish && s0.safeAppendToBuffer) ||
                  (!toPublish && cmpLe cfg nd (maxBufferedDocNE cfg s0.buffer))
              if toPublish then addPublished cfg i nd s0
              else if staysInBuffer then
                some { s0 with buffer := hSet s0.buffer i nd }
              else some { s0 with safeAppendToBuffer := false }
    else
      if cachedBefore then removeMatching cfg i s else some s

/-- Kinds of oplog operations the driver handles (`op.op`): insert, update,
delete. Any other kind is a fatal error in the source and is outside the
model. -/
inductive OpKind where
  | ins
  | upd
  | del
deriving DecidableEq, Repr

/-- An oplog entry as the handler consumes it: kind, affected id (the result
of the external `idForOp`), payload `op.o`, and timestamp `op.ts` (already
stringified into a cache key, modelled as a number). -/
structure OplogOp where
  kind : OpKind
  id : DocId
  o : Doc
  ts : Nat
deriving DecidableEq, Repr

/-- An oplog notification: either a collection drop or an operation. -/
structure OplogNotification where
  dropCollection : Bool
  op : OplogOp
deriving DecidableEq, Repr

/-- Does the character list start with the pattern? -/
def startsWithChars : List Char → List Char → Bool
  | [], _ => true
  | _ :: _, [] => false
  | p :: ps, c :: cs => p == c && startsWithChars ps cs

/-- Does the character list contain the pattern as a contiguous run? -/
def hasSubChars (pat : List Char) : List Char → Bool
  | [] => startsWithChars pat []
  | c :: cs => startsWithChars pat (c :: cs) || hasSubChars pat cs

/-- The field-name test of the regular expression `/EJSON\$/`: the name
contains the substring `EJSON$`. -/
def hasEJSONMarker (f : String) : Bool :=
  hasSubChars "EJSON$".toList f.toList

/-- Translation of `modifierCanBeDirectlyApplied` (lines 789-795): every
field name under every operator must avoid the `EJSON$` custom-type marker.
Non-object operator payloads have no field names, so they pass vacuously,
as with underscore's `_.all`. -/
def modifierCanBeDirectlyApplied (modifier : Doc) : Bool :=
  modifier.all (fun kv =>
    match kv.2 with
    | OVal.obj fs => fs.all (fun f => !hasEJSONMarker f.1)
    | OVal.num _ => true)

/-- Modelled from the spec: minimongo's `LocalCollection._modify` is not part
of src/; the spec's glossary describes a modifier as operators that "set/unset
a field path", so we apply the set and unset operators and leave any other
operator payload alone. Only the call shape matters for the claims. -/
def applyModify (d : Doc) (modifier : Doc) : Doc :=
  modifier.foldl (fun acc kv =>
    match kv with
    | ("$set", OVal.obj fs) =>
        fs.foldl (fun a f => dSet a f.1 (OVal.num f.2)) acc
    | ("$unset", OVal.obj fs) =>
        fs.foldl (fun a f => dDelete a f.1) acc
    | _ => acc) d

/-- Translation of `_.extend({_id: id}, op.o)` for a replacement update: the
payload's own fields win, so its `_id` (if any) overrides the supplied id. -/
def extendIdDoc (i : DocId) (o : Doc) : Doc :=
  if dHasKey o "_id" then o else ("_id", OVal.num i) :: o

/-- Sync effect of `_fetchModifiedDocuments` (lines 370-372): transition to
FETCHING. The deferred fetch loop is modelled by the separate
`fetchBatchStart` / `fetchResult` / `fetchDrain` actions. -/
def fetchModifiedSync (s : DState) : DState :=
  { s with phase := Phase.fetching }

/-- Translation of `_handleOplogEntryQuerying` (lines 434-437): just record
the id for a later fetch. -/
def handleOplogEntryQuerying (op : OplogOp) (s : DState) : DState :=
  { s with needToFetch := nSet s.needToFetch op.id op.ts }

/-- Translation of `_handleOplogEntrySteadyOrFetching` (lines 438-501). -/
def handleOplogEntrySteadyOrFetching (cfg : Config) (op : OplogOp)
    (s : DState) : Option DState :=
  let i := op.id
  if s.phase == Phase.fetching &&
      ((match s.currentlyFetching with
        | some cf => nHas cf i
        | none => false) || nHas s.needToFetch i) then
    some { s with needToFetch := nSet s.needToFetch i op.ts }
  else
    match op.kind with
    | OpKind.del =>
        if hHas s.published i || (cfg.limit != 0 && hHas s.buffer i) then
          removeMatching cfg i s
        else some s
    | OpKind.ins =>
        if hHas s.published i then none
        else if cfg.limit != 0 && hHas s.buffer i then none
        else if cfg.docMatches op.o then addMatching cfg op.o s
        else some s
    | OpKind.upd =>
        let isReplace := !dHasKey op.o "$set" && !dHasKey op.o "$unset"
        let canDirectlyModifyDoc :=
          !isReplace && modifierCanBeDirectlyApplied op.o
        let publishedBefore := hHas s.published i
        let bufferedBefore := cfg.limit != 0 && hHas s.buffer i
        if isReplace then handleDoc cfg i (some (extendIdDoc i op.o)) s
        else if (publishedBefore || bufferedBefore) && canDirectlyModifyDoc then
          match (if hHas s.published i then hGet s.published i
                 else hGet s.buffer i) with
          | none => none   -- dead: the guard ensures the doc is cached
          | some cached =>
              let newDoc := applyModify (dSet cached "_id" (OVal.num i)) op.o
              handleDoc cfg i (some (cfg.sharedProjFn newDoc)) s
        else if !canDirectlyModifyDoc || cfg.canBecomeTrueByModifier op.o then
          let s1 := { s with needToFetch := nSet s.needToFetch i op.ts }
          if s1.phase == Phase.steady then some (fetchModifiedSync s1)
          else some s1
        else some s

/-- Sync part of `_beSteady` (lines 423-433): enter STEADY, take the whole
pending write list, clear it, and register a single `multiplexer.onFlush`
callback that commits all of its tokens. -/
def beSteady (s : DState) : DState :=
  { s with
    phase := Phase.steady
    writesToCommitWhenWeReachSteady := []
    out := s.out ++ [Emit.flushCommit s.writesToCommitWhenWeReachSteady] }

/-- Translation of `_doneQuerying` (lines 599-619); the suspension in
`waitUntilCaughtUp` has no state effect in the model. -/
def doneQuerying (s : DState) : Option DState :=
  if s.stopped then some s
  else if s.phase != Phase.querying then none
  else if s.requeryWhenDoneThisQuery then
    some (pollQuerySync { s with requeryWhenDoneThisQuery := false })
  else if s.needToFetch.isEmpty then some (beSteady s)
  else some (fetchModifiedSync s)

/-- Translation of `_runInitialQuery` (lines 502-528). The query itself is an
external collaborator, modelled as a function from the requested limit to the
returned documents; the driver asks for `limit * 2` of them. -/
def runInitialQuery (cfg : Config) (query : Nat → List Doc) (s : DState) :
    Option DState :=
  if s.stopped then none
  else
    let docs := query (cfg.limit * 2)
    (docs.foldl (fun acc d => acc.bind (addMatching cfg d)) (some s)).bind
      (fun s1 =>
        let s2 := { s1 with
          safeAppendToBuffer := decide (docs.length < cfg.limit * 2) }
        if s2.stopped then none
        else doneQuerying { s2 with out := s2.out ++ [Emit.ready] })

/-- Translation of `_publishNewResults` (lines 653-697). -/
def publishNewResults (cfg : Config) (newResults newBuffer : List (DocId × Doc))
    (s : DState) : Option DState :=
  let s0 := if cfg.limit != 0 then { s with buffer := [] } else s
  let idsToRemove :=
    s0.published.filterMap (fun e =>
      if !hHas newResults e.1 then some e.1 else none)
  (idsToRemove.foldl (fun acc i => acc.bind (removePublished cfg i))
      (some s0)).bind (fun s1 =>
    (newResults.foldl (fun acc e => acc.bind (handleDoc cfg e.1 (some e.2)))
        (some s1)).bind (fun s2 =>
      if s2.published.length != newResults.length then none
      else if !s2.published.all (fun e => hHas newResults e.1) then none
      else
        let s3 := newBuffer.foldl (fun t e => addBuffered cfg e.1 e.2 t) s2
        some { s3 with
          safeAppendToBuffer := decide (newBuffer.length < cfg.limit) }))

/-- Deferred body of `_pollQuery` (lines 557-574): run the 2-times-limit
query, split the first `limit` results from the buffer chunk, publish, and
finish with `doneQuerying`. -/
def pollQueryBody (cfg : Config) (query : Nat → List Doc) (s : DState) :
    Option DState :=
  let docs := query (cfg.limit * 2)
  let newResults :=
    if cfg.limit == 0 then docs.map (fun d => (docIdOf d, d))
    else (docs.take cfg.limit).map (fun d => (docIdOf d, d))
  let newBuffer :=
    if cfg.limit == 0 then []
    else (docs.drop cfg.limit).map (fun d => (docIdOf d, d))
  (publishNewResults cfg newResults newBuffer s).bind doneQuerying

/-- Deferred body of the write-fence listener (lines 107-133): once the oplog
has caught up, commit immediately when stopped, commit on the next flush when
STEADY, and otherwise park the token until the driver reaches STEADY. -/
def fenceWrite (w : Nat) (s : DState) : DState :=
  if s.stopped then { s with out := s.out ++ [Emit.committed w] }
  else if s.phase == Phase.steady then
    { s with out := s.out ++ [Emit.flushCommit [w]] }
  else
    { s with writesToCommitWhenWeReachSteady :=
        s.writesToCommitWhenWeReachSteady ++ [w] }

/-- Translation of `stop` (lines 702-731): idempotent; commits every parked
write token immediately and drops the big caches. The source sets the caches
to `null`; the model clears them. -/
def stopDriver (s : DState) : DState :=
  if s.stopped then s
  else
    { s with
      stopped := true
      out := s.out ++ s.writesToCommitWhenWeReachSteady.map Emit.committed
      writesToCommitWhenWeReachSteady := []
      published := []
      buffer := []
      needToFetch := []
      currentlyFetching := none }

/-- Head of one iteration of the fetch loop (lines 376-383): when the loop
condition holds, the phase must still be FETCHING (else throw); move
`needToFetch` into `currentlyFetching`, increment the generation, and start
from a fresh empty `needToFetch`. -/
def fetchBatchStart (s : DState) : Option DState :=
  if !s.stopped && !s.needToFetch.isEmpty then
    if s.phase != Phase.fetching then none
    else
      some { s with
        currentlyFetching := some s.needToFetch
        fetchGeneration := s.fetchGeneration + 1
        needToFetch := [] }
  else some s

/-- Completion callback of one successful fetch (lines 392-409): apply
`handleDoc` only when the driver is not stopped, the phase is still FETCHING,
and the generation still matches the one observed at launch; otherwise the
result is discarded. The error path merely records the error and is outside
the claims. -/
def fetchResult (cfg : Config) (thisGeneration : Nat) (i : DocId)
    (d : Option Doc) (s : DState) : Option DState :=
  if !s.stopped && s.phase == Phase.fetching &&
      s.fetchGeneration == thisGeneration then
    handleDoc cfg i d s
  else some s

/-- Exit of the fetch loop (lines 411-421): return silently when a poll query
took over (phase QUERYING), keep looping while work remains, and call
`_beSteady` on drain. -/
def fetchDrain (s : DState) : DState :=
  if s.phase == Phase.querying then s
  else if !s.stopped && !s.needToFetch.isEmpty then s
  else beSteady s

/-- One schedulable unit of driver work. Oplog notifications and the fence
listener are the synchronous callbacks; the query bodies, fetch-loop pieces
and `stop` are the deferred tasks. Interleavings not reachable under the real
scheduler are included, so the safety theorems below cover a superset of the
real behaviours. -/
inductive Action where
  | oplog (n : OplogNotification)
  | fence (w : Nat)
  | initialQuery (query : Nat → List Doc)
  | pollBody (query : Nat → List Doc)
  | batchStart
  | fetched (thisGeneration : Nat) (i : DocId) (d : Option Doc)
  | drain
  | stopNow

/-- Dispatch of a single action, following the source's own dispatch (the
oplog callback on lines 86-101 chooses the handler by phase). -/
def stepAction (cfg : Config) (a : Action) (s : DState) : Option DState :=
  match a with
  | Action.oplog n =>
      if n.dropCollection then some (needToPollQuery s)
      else if s.phase == Phase.querying then
        some (handleOplogEntryQuerying n.op s)
      else handleOplogEntrySteadyOrFetching cfg n.op s
  | Action.fence w => some (fenceWrite w s)
  | Action.initialQuery q => runInitialQuery cfg q s
  | Action.pollBody q => pollQueryBody cfg q s
  | Action.batchStart => fetchBatchStart s
  | Action.fetched g i d => fetchResult cfg g i d s
  | Action.drain => some (fetchDrain s)
  | Action.stopNow => some (stopDriver s)

/-- Run a list of actions; a thrown error anywhere aborts the trace. -/
def runActions (cfg : Config) (acts : List Action) (s : DState) :
    Option DState :=
  acts.foldl (fun acc a => acc.bind (stepAction cfg a)) (some s)

/-- The write tokens captured by the fence listener along a trace. -/
def captures (acts : List Action) : List Nat :=
  acts.filterMap (fun a =>
    match a with
    | Action.fence w => some w
    | _ => none)

/-- The write tokens committed in an emission trace, whether directly or
through a registered flush callback. -/
def commits (l : List Emit) : List Nat :=
  l.foldr (fun e acc =>
    match e with
    | Emit.flushCommit ws => ws ++ acc
    | Emit.committed w => w :: acc
    | _ => acc) []

/-- The write tokens captured by a single action. -/
def captureOf (a : Action) : List Nat :=
  match a with
  | Action.fence w => [w]
  | _ => []

theorem commits_append (l1 l2 : List Emit) :
    commits (l1 ++ l2) = commits l1 ++ commits l2 := by
  induction l1 with
  | nil => simp [commits]
  | cons e t ih =>
      simp only [List.cons_append, commits, List.foldr_cons] at *
      cases e <;> simp [ih]

/-- Every `added` emission in a slice of the output carries publish-projected
fields computed from a document without `_id`. -/
def DeltaAddedOK (cfg : Config) (l : List Emit) : Prop :=
  ∀ i f, Emit.added i f ∈ l → ∃ d, f = cfg.projFn d ∧ dHasKey d "_id" = false

theorem deltaAddedOK_nil (cfg : Config) : DeltaAddedOK cfg [] := by
  intro i f h; simp at h

theorem deltaAddedOK_append (cfg : Config) (l1 l2 : List Emit)
    (h1 : DeltaAddedOK cfg l1) (h2 : DeltaAddedOK cfg l2) :
    DeltaAddedOK cfg (l1 ++ l2) := by
  intro i f h
  rcases List.mem_append.mp h with h | h
  · exact h1 i f h
  · exact h2 i f h

/-- Bookkeeping facts relating the states before and after one piece of
driver work: `cap` is the list of write tokens captured during the step and
`c` the list of tokens committed by it. The clauses are, in order: the
published-size bound is preserved; the output grows by a slice whose `added`
emissions are well-formed and whose committed tokens are exactly `c`; tokens
are conserved (pending plus newly committed is a permutation of previously
pending plus newly captured); the fetch generation never decreases; a stopped
driver keeps its pending list empty; `stopped` is monotone; and a step that
commits anything ends stopped or in STEADY. -/
def StepOK (cfg : Config) (cap c : List Nat) (s s' : DState) : Prop :=
  (cfg.limit ≠ 0 → s.published.length ≤ cfg.limit →
    s'.published.length ≤ cfg.limit) ∧
  (∃ dl, s'.out = s.out ++ dl ∧ DeltaAddedOK cfg dl ∧ commits dl = c) ∧
  (s'.writesToCommitWhenWeReachSteady ++ c).Perm
    (s.writesToCommitWhenWeReachSteady ++ cap) ∧
  s.fetchGeneration ≤ s'.fetchGeneration ∧
  ((s.stopped = true → s.writesToCommitWhenWeReachSteady = []) →
    s'.stopped = true → s'.writesToCommitWhenWeReachSteady = []) ∧
  (s.stopped = true → s'.stopped = true) ∧
  (c ≠ [] → s'.stopped = true ∨ s'.phase = Phase.steady)

theorem stepOK_refl (cfg : Config) (s : DState) : StepOK cfg [] [] s s := by
  refine ⟨fun _ h => h, ⟨[], by simp, deltaAddedOK_nil cfg, rfl⟩, by simp,
    le_refl _, fun h => h, fun h => h, fun h => absurd rfl h⟩

/-- Helper for the commit-free steps: supply the output slice and the frame
conditions. -/
theorem stepOK_mk (cfg : Config) (s s' : DState) (dl : List Emit)
    (hout : s'.out = s.out ++ dl)
    (hdl : DeltaAddedOK cfg dl)
    (hc : commits dl = [])
    (hpend : s'.writesToCommitWhenWeReachSteady =
      s.writesToCommitWhenWeReachSteady)
    (hgen : s.fetchGeneration ≤ s'.fetchGeneration)
    (hstop : s'.stopped = s.stopped)
    (hpub : cfg.limit ≠ 0 → s.published.length ≤ cfg.limit →
      s'.published.length ≤ cfg.limit) :
    StepOK cfg [] [] s s' := by
  refine ⟨hpub, ⟨dl, hout, hdl, hc⟩, by simp [hpend], hgen, ?_, ?_, ?_⟩
  · intro h hs'; rw [hpend]; exact h (hstop ▸ hs')
  · intro h; rw [hstop]; exact h
  · intro h; exact absurd rfl h

/-- Composition of two steps when the first commits nothing. The driver only
ever commits as the final part of a step (`beSteady`, `stop`, or the fence
callback itself), so this is the only composition the development needs. -/
theorem stepOK_trans (cfg : Config) (cap1 cap2 c2 : List Nat) (s s' s'' : DState)
    (h1 : StepOK cfg cap1 [] s s') (h2 : StepOK cfg cap2 c2 s' s'') :
    StepOK cfg (cap1 ++ cap2) c2 s s'' := by
  obtain ⟨a1, ⟨dl1, o1, d1, c1⟩, p1, g1, e1, m1, _⟩ := h1
  obtain ⟨a2, ⟨dl2, o2, d2, cc2⟩, p2, g2, e2, m2, q2⟩ := h2
  refine ⟨fun hl hb => a2 hl (a1 hl hb),
    ⟨dl1 ++ dl2, by rw [o2, o1, List.append_assoc],
      deltaAddedOK_append cfg dl1 dl2 d1 d2, by rw [commits_append, c1, cc2]; simp⟩,
    ?_, le_trans g1 g2, fun h => e2 (e1 h), fun h => m2 (m1 h), q2⟩
  have p1' : s'.writesToCommitWhenWeReachSteady.Perm
      (s.writesToCommitWhenWeReachSteady ++ cap1) := by simpa using p1
  have := p2.trans (p1'.append_right cap2)
  simpa [List.append_assoc] using this

theorem hHas_of_mem (h : HeapT) (e : DocId × Doc) (he : e ∈ h) :
    hHas h e.1 = true := by
  simp only [hHas, List.any_eq_true]
  exact ⟨e, he, by simp⟩

theorem hGet_isSome_of_has (h : HeapT) (i : DocId) (hh : hHas h i = true) :
    (hGet h i).isSome = true := by
  simp only [hHas, List.any_eq_true] at hh
  obtain ⟨e, he, hei⟩ := hh
  simp only [hGet]
  cases hfind : h.find? (fun e => e.1 == i) with
  | none =>
      rw [List.find?_eq_none] at hfind
      exact absurd hei (by simpa using hfind e he)
  | some v => rfl

theorem length_hRemove_le (h : HeapT) (i : DocId) :
    (hRemove h i).length ≤ h.length :=
  List.length_filter_le _ _

theorem length_hRemove_lt (h : HeapT) (i : DocId) (hh : hHas h i = true) :
    (hRemove h i).length < h.length := by
  simp only [hHas, List.any_eq_true] at hh
  obtain ⟨e, he, hei⟩ := hh
  rw [hRemove, List.length_filter_lt_length_iff_exists]
  exact ⟨e, he, by simp_all⟩

theorem length_hSet_le (h : HeapT) (i : DocId) (d : Doc) :
    (hSet h i d).length ≤ h.length + 1 := by
  simp only [hSet, List.length_append, List.length_cons, List.length_nil]
  have := List.length_filter_le (fun e : DocId × Doc => e.1 != i) h
  omega

theorem length_hSet_le_of_has (h : HeapT) (i : DocId) (d : Doc)
    (hh : hHas h i = true) : (hSet h i d).length ≤ h.length := by
  simp only [hSet, List.length_append, List.length_cons, List.length_nil]
  have := length_hRemove_lt h i hh
  simp only [hRemove] at this
  omega

theorem foldl_pickMax_mem (cmp : Doc → Doc → Int) :
    ∀ (h : HeapT) (acc : Option (DocId × Doc)) (e : DocId × Doc),
      h.foldl (pickMax cmp) acc = some e → acc = some e ∨ e ∈ h := by
  intro h
  induction h with
  | nil => intro acc e hacc; exact Or.inl hacc
  | cons x t ih =>
      intro acc e hacc
      simp only [List.foldl_cons] at hacc
      rcases ih _ _ hacc with h1 | h1
      · cases acc with
        | none =>
            simp only [pickMax, Option.some.injEq] at h1
            exact Or.inr (h1 ▸ List.mem_cons_self x t)
        | some m =>
            simp only [pickMax] at h1
            by_cases hc : cmp x.2 m.2 > 0
            · rw [if_pos hc] at h1
              rw [Option.some.injEq] at h1
              exact Or.inr (h1 ▸ List.mem_cons_self x t)
            · rw [if_neg hc] at h1
              exact Or.inl h1
      · exact Or.inr (List.mem_cons_of_mem x h1)

theorem foldl_pickMin_mem (cmp : Doc → Doc → Int) :
    ∀ (h : HeapT) (acc : Option (DocId × Doc)) (e : DocId × Doc),
      h.foldl (pickMin cmp) acc = some e → acc = some e ∨ e ∈ h := by
  intro h
  induction h with
  | nil => intro acc e hacc; exact Or.inl hacc
  | cons x t ih =>
      intro acc e hacc
      simp only [List.foldl_cons] at hacc
      rcases ih _ _ hacc with h1 | h1
      · cases acc with
        | none =>
            simp only [pickMin, Option.some.injEq] at h1
            exact Or.inr (h1 ▸ List.mem_cons_self x t)
        | some m =>
            simp only [pickMin] at h1
            by_cases hc : cmp x.2 m.2 < 0
            · rw [if_pos hc] at h1
              rw [Option.some.injEq] at h1
              exact Or.inr (h1 ▸ List.mem_cons_self x t)
            · rw [if_neg hc] at h1
              exact Or.inl h1
      · exact Or.inr (List.mem_cons_of_mem x h1)

theorem maxEltEntry_mem (cmp : Doc → Doc → Int) (h : HeapT) (e : DocId × Doc)
    (he : maxEltEntry cmp h = some e) : e ∈ h := by
  rcases foldl_pickMax_mem cmp h none e he with h1 | h1
  · exact absurd h1 (by simp)
  · exact h1

theorem minEltEntry_mem (cmp : Doc → Doc → Int) (h : HeapT) (e : DocId × Doc)
    (he : minEltEntry cmp h = some e) : e ∈ h := by
  rcases foldl_pickMin_mem cmp h none e he with h1 | h1
  · exact absurd h1 (by simp)
  · exact h1

theorem foldl_pickMax_isSome (cmp : Doc → Doc → Int) :
    ∀ (h : HeapT) (acc : Option (DocId × Doc)), acc.isSome = true →
      (h.foldl (pickMax cmp) acc).isSome = true := by
  intro h
  induction h with
  | nil => intro acc hacc; exact hacc
  | cons x t ih =>
      intro acc hacc
      simp only [List.foldl_cons]
      apply ih
      cases acc with
      | none => rfl
      | some m =>
          simp only [pickMax]
          split <;> rfl

theorem foldl_pickMin_isSome (cmp : Doc → Doc → Int) :
    ∀ (h : HeapT) (acc : Option (DocId × Doc)), acc.isSome = true →
      (h.foldl (pickMin cmp) acc).isSome = true := by
  intro h
  induction h with
  | nil => intro acc hacc; exact hacc
  | cons x t ih =>
      intro acc hacc
      simp only [List.foldl_cons]
      apply ih
      cases acc with
      | none => rfl
      | some m =>
          simp only [pickMin]
          split <;> rfl

theorem maxEltEntry_isSome (cmp : Doc → Doc → Int) (h : HeapT)
    (hne : h ≠ []) : (maxEltEntry cmp h).isSome = true := by
  cases h with
  | nil => exact absurd rfl hne
  | cons x t =>
      simp only [maxEltEntry, List.foldl_cons]
      exact foldl_pickMax_isSome cmp t (pickMax cmp none x) rfl

theorem minEltEntry_isSome (cmp : Doc → Doc → Int) (h : HeapT)
    (hne : h ≠ []) : (minEltEntry cmp h).isSome = true := by
  cases h with
  | nil => exact absurd rfl hne
  | cons x t =>
      simp only [minEltEntry, List.foldl_cons]
      exact foldl_pickMin_isSome cmp t (pickMin cmp none x) rfl

theorem dHasKey_dDelete (d : Doc) (k : String) :
    dHasKey (dDelete d k) k = false := by
  simp only [dHasKey, dDelete]
  rw [List.any_eq_false]
  rintro ⟨f, v⟩ hm
  rw [List.mem_filter] at hm
  simp only [bne_iff_ne, ne_eq] at hm
  simpa using hm.2

theorem deltaAddedOK_single_added (cfg : Config) (i : DocId) (d : Doc) :
    DeltaAddedOK cfg [Emit.added i (cfg.projFn (dDelete d "_id"))] := by
  intro i' f hmem
  simp only [List.mem_singleton, Emit.added.injEq] at hmem
  exact ⟨dDelete d "_id", hmem.2, dHasKey_dDelete d "_id"⟩

theorem deltaAddedOK_no_added (cfg : Config) (dl : List Emit)
    (h : ∀ i f, Emit.added i f ∉ dl) : DeltaAddedOK cfg dl := by
  intro i f hmem
  exact absurd hmem (h i f)

theorem pollQuerySync_ok (cfg : Config) (s : DState) :
    StepOK cfg [] [] s (pollQuerySync s) := by
  simp only [pollQuerySync]
  split
  · exact stepOK_refl cfg s
  · exact stepOK_mk cfg s _ [] (by simp) (deltaAddedOK_nil cfg) rfl rfl
      (Nat.le_succ _) rfl (fun _ h => h)

theorem needToPollQuery_ok (cfg : Config) (s : DState) :
    StepOK cfg [] [] s (needToPollQuery s) := by
  simp only [needToPollQuery]
  split
  · exact stepOK_refl cfg s
  · split
    · exact pollQuerySync_ok cfg s
    · exact stepOK_mk cfg s _ [] (by simp) (deltaAddedOK_nil cfg) rfl rfl
        (le_refl _) rfl (fun _ h => h)

theorem addBuffered_ok (cfg : Config) (i : DocId) (d : Doc) (s : DState) :
    StepOK cfg [] [] s (addBuffered cfg i d s) := by
  simp only [addBuffered]
  split
  · split
    · exact stepOK_mk cfg s _ [] (by simp) (deltaAddedOK_nil cfg) rfl rfl
        (le_refl _) rfl (fun _ h => h)
    · exact stepOK_mk cfg s _ [] (by simp) (deltaAddedOK_nil cfg) rfl rfl
        (le_refl _) rfl (fun _ h => h)
  · exact stepOK_mk cfg s _ [] (by simp) (deltaAddedOK_nil cfg) rfl rfl
      (le_refl _) rfl (fun _ h => h)

theorem removeBuffered_ok (cfg : Config) (i : DocId) (s : DState) :
    StepOK cfg [] [] s (removeBuffered cfg i s) := by
  simp only [removeBuffered]
  split
  · have h1 : StepOK cfg [] [] s { s with buffer := hRemove s.buffer i } :=
      stepOK_mk cfg s _ [] (by simp) (deltaAddedOK_nil cfg) rfl rfl
        (le_refl _) rfl (fun _ h => h)
    have h2 := needToPollQuery_ok cfg { s with buffer := hRemove s.buffer i }
    simpa using stepOK_trans cfg [] [] [] _ _ _ h1 h2
  · exact stepOK_mk cfg s _ [] (by simp) (deltaAddedOK_nil cfg) rfl rfl
      (le_refl _) rfl (fun _ h => h)

theorem addPublished_ok (cfg : Config) (i : DocId) (d : Doc) (s s' : DState)
    (h : addPublished cfg i d s = some s') : StepOK cfg [] [] s s' := by
  simp only [addPublished] at h
  split at h
  · next hover =>
      split at h
      · exact absurd h (by simp)
      · next hone =>
          split at h
          · exact absurd h (by simp)
          · next ovId hmax =>
              split at h
              · exact absurd h (by simp)
              · next ovDoc hget =>
                  split at h
                  · exact absurd h (by simp)
                  · next hne =>
                      rw [Option.some.injEq] at h
                      subst h
                      have hone' : (hSet s.published i (cfg.sharedProjFn d)).length =
                          cfg.limit + 1 := by simpa using hone
                      have hhas : hHas (hSet s.published i (cfg.sharedProjFn d)) ovId = true := by
                        simp only [maxElementId] at hmax
                        cases hme : maxEltEntry cfg.cmp (hSet s.published i (cfg.sharedProjFn d)) with
                        | none => rw [hme] at hmax; simp at hmax
                        | some e =>
                            rw [hme] at hmax
                            simp only [Option.map_some', Option.some.injEq] at hmax
                            have := hHas_of_mem _ e (maxEltEntry_mem cfg.cmp _ e hme)
                            rw [hmax] at this
                            exact this
                      have hlen : (hRemove (hSet s.published i (cfg.sharedProjFn d)) ovId).length <
                          (hSet s.published i (cfg.sharedProjFn d)).length :=
                        length_hRemove_lt _ _ hhas
                      have h1 : StepOK cfg [] [] s
                          { s with
                            published := hRemove (hSet s.published i (cfg.sharedProjFn d)) ovId
                            out := s.out ++ [Emit.added i (cfg.projFn (dDelete d "_id"))] ++
                              [Emit.removed ovId] } := by
                        refine stepOK_mk cfg s _
                          ([Emit.added i (cfg.projFn (dDelete d "_id"))] ++ [Emit.removed ovId])
                          ?_ ?_ ?_ rfl (le_refl _) rfl ?_
                        · simp
                        · exact deltaAddedOK_append cfg _ _
                            (deltaAddedOK_single_added cfg i d)
                            (deltaAddedOK_no_added cfg _ (by intro a b hm; simp at hm))
                        · simp [commits]
                        · intro _ _
                          simp only
                          omega
                      have h2 := addBuffered_ok cfg ovId ovDoc
                        { s with
                          published := hRemove (hSet s.published i (cfg.sharedProjFn d)) ovId
                          out := s.out ++ [Emit.added i (cfg.projFn (dDelete d "_id"))] ++
                            [Emit.removed ovId] }
                      simpa using stepOK_trans cfg [] [] [] _ _ _ h1 h2
  · next hover =>
      rw [Option.some.injEq] at h
      subst h
      refine stepOK_mk cfg s _ [Emit.added i (cfg.projFn (dDelete d "_id"))]
        ?_ (deltaAddedOK_single_added cfg i d) ?_ rfl (le_refl _) rfl ?_
      · simp
      · simp [commits]
      · intro hl _
        simp only
        rcases Nat.lt_or_ge cfg.limit (hSet s.published i (cfg.sharedProjFn d)).length
          with hgt | hge
        · exfalso
          apply hover
          simp only [Bool.and_eq_true, bne_iff_ne, ne_eq, decide_eq_true_eq]
          exact ⟨hl, hgt⟩
        · exact hge

theorem removePublished_ok (cfg : Config) (i : DocId) (s s' : DState)
    (h : removePublished cfg i s = some s') : StepOK cfg [] [] s s' := by
  have h1 : StepOK cfg [] [] s
      { s with published := hRemove s.published i
               out := s.out ++ [Emit.removed i] } := by
    refine stepOK_mk cfg s _ [Emit.removed i] ?_ ?_ ?_ rfl (le_refl _) rfl ?_
    · simp
    · exact deltaAddedOK_no_added cfg _ (by intro a b hm; simp at hm)
    · simp [commits]
    · intro _ hb
      exact le_trans (length_hRemove_le s.published i) hb
  simp only [removePublished] at h
  split at h
  · rw [Option.some.injEq] at h; subst h; exact h1
  · split at h
    · split at h
      · split at h
        · exact absurd h (by simp)
        · rw [Option.some.injEq] at h; subst h; exact h1
      · split at h
        · exact absurd h (by simp)
        · next nId hmin =>
            split at h
            · exact absurd h (by simp)
            · next nDoc hget =>
                have h2 := removeBuffered_ok cfg nId
                  { s with published := hRemove s.published i
                           out := s.out ++ [Emit.removed i] }
                have h3 := addPublished_ok cfg nId nDoc _ s' h
                exact stepOK_trans cfg [] [] [] _ _ _
                  (stepOK_trans cfg [] [] [] _ _ _ h1 h2) h3
    · rw [Option.some.injEq] at h; subst h; exact h1

theorem changePublished_ok (cfg : Config) (i : DocId) (od : Option Doc)
    (nd : Doc) (s : DState) (hhas : hHas s.published i = true) :
    StepOK cfg [] [] s (changePublished cfg i od nd s) := by
  simp only [changePublished]
  split
  · refine stepOK_mk cfg s _ [] ?_ (deltaAddedOK_nil cfg) rfl rfl (le_refl _)
      rfl ?_
    · simp
    · intro _ hb
      exact le_trans (length_hSet_le_of_has _ _ _ hhas) hb
  · refine stepOK_mk cfg s _
      [Emit.changed i (cfg.projFn (makeChangedFields nd od))]
      ?_ ?_ ?_ rfl (le_refl _) rfl ?_
    · simp
    · exact deltaAddedOK_no_added cfg _ (by intro a b hm; simp at hm)
    · simp [commits]
    · intro _ hb
      exact le_trans (length_hSet_le_of_has _ _ _ hhas) hb

theorem addMatching_ok (cfg : Config) (d : Doc) (s s' : DState)
    (h : addMatching cfg d s = some s') : StepOK cfg [] [] s s' := by
  simp only [addMatching] at h
  split at h
  · exact absurd h (by simp)
  · split at h
    · exact absurd h (by simp)
    · split at h
      · exact addPublished_ok cfg _ d s s' h
      · split at h
        · rw [Option.some.injEq] at h
          subst h
          exact addBuffered_ok cfg _ d s
        · rw [Option.some.injEq] at h
          subst h
          refine stepOK_mk cfg s _ [] ?_ (deltaAddedOK_nil cfg) rfl rfl
            (le_refl _) rfl (fun _ hb => hb)
          simp

theorem removeMatching_ok (cfg : Config) (i : DocId) (s s' : DState)
    (h : removeMatching cfg i s = some s') : StepOK cfg [] [] s s' := by
  simp only [removeMatching] at h
  split at h
  · exact absurd h (by simp)
  · split at h
    · exact removePublished_ok cfg i s s' h
    · split at h
      · rw [Option.some.injEq] at h
        subst h
        exact removeBuffered_ok cfg i s
      · rw [Option.some.injEq] at h
        subst h
        exact stepOK_refl cfg s

theorem handleDoc_ok (cfg : Config) (i : DocId) (nd : Option Doc) (s s' : DState)
    (h : handleDoc cfg i nd s = some s') : StepOK cfg [] [] s s' := by
  simp only [handleDoc] at h
  split at h
  · split at h
    · exact removeMatching_ok cfg i s s' h
    · rw [Option.some.injEq] at h; subst h; exact stepOK_refl cfg s
  · next ndoc =>
    split at h
    · split at h
      · exact addMatching_ok cfg ndoc s s' h
      · split at h
        · next hpub =>
          split at h
          · rw [Option.some.injEq] at h
            subst h
            exact changePublished_ok cfg i _ ndoc s (by simpa using hpub)
          · cases hrp : removePublished cfg i s with
            | none => rw [hrp] at h; simp at h
            | some s1 =>
                rw [hrp] at h
                simp only [Option.some_bind] at h
                have hr := removePublished_ok cfg i s s1 hrp
                split at h
                · rw [Option.some.injEq] at h
                  subst h
                  exact stepOK_trans cfg [] [] [] _ _ _ hr
                    (addBuffered_ok cfg i ndoc s1)
                · rw [Option.some.injEq] at h
                  subst h
                  refine stepOK_trans cfg [] [] [] _ _ _ hr ?_
                  refine stepOK_mk cfg s1 _ [] ?_ (deltaAddedOK_nil cfg) rfl rfl
                    (le_refl _) rfl (fun _ hb => hb)
                  simp
        · -- bufferedBefore: the silent removal from the buffer, then reclassify
          have h0 : StepOK cfg [] [] s { s with buffer := hRemove s.buffer i } :=
            stepOK_mk cfg s _ [] (by simp) (deltaAddedOK_nil cfg) rfl rfl
              (le_refl _) rfl (fun _ hb => hb)
          split at h
          · exact absurd h (by simp)
          · next maxPub hmp =>
            split at h
            · exact stepOK_trans cfg [] [] [] _ _ _ h0
                (addPublished_ok cfg i ndoc _ s' h)
            · split at h
              · rw [Option.some.injEq] at h
                subst h
                refine stepOK_trans cfg [] [] [] _ _ _ h0 ?_
                refine stepOK_mk cfg _ _ [] ?_ (deltaAddedOK_nil cfg) rfl rfl
                  (le_refl _) rfl (fun _ hb => hb)
                simp
              · rw [Option.some.injEq] at h
                subst h
                refine stepOK_trans cfg [] [] [] _ _ _ h0 ?_
                refine stepOK_mk cfg _ _ [] ?_ (deltaAddedOK_nil cfg) rfl rfl
                  (le_refl _) rfl (fun _ hb => hb)
                simp
    · split at h
      · exact removeMatching_ok cfg i s s' h
      · rw [Option.some.injEq] at h; subst h; exact stepOK_refl cfg s

theorem foldBind_none {α : Type} (f : α → DState → Option DState)
    (l : List α) :
    l.foldl (fun acc x => acc.bind (f x)) none = none := by
  induction l with
  | nil => rfl
  | cons x t ih => simpa using ih

theorem foldBind_ok {α : Type} (cfg : Config) (f : α → DState → Option DState)
    (hf : ∀ x s s', f x s = some s' → StepOK cfg [] [] s s') :
    ∀ (l : List α) (s s' : DState),
      l.foldl (fun acc x => acc.bind (f x)) (some s) = some s' →
      StepOK cfg [] [] s s' := by
  intro l
  induction l with
  | nil =>
      intro s s' h
      rw [List.foldl_nil, Option.some.injEq] at h
      subst h
      exact stepOK_refl cfg s
  | cons x t ih =>
      intro s s' h
      rw [List.foldl_cons] at h
      simp only [Option.some_bind] at h
      cases hx : f x s with
      | none =>
          rw [hx] at h
          rw [foldBind_none] at h
          exact absurd h (by simp)
      | some s1 =>
          rw [hx] at h
          exact stepOK_trans cfg [] [] [] _ _ _ (hf x s s1 hx) (ih s1 s' h)

theorem foldPure_ok {α : Type} (cfg : Config) (g : α → DState → DState)
    (hg : ∀ x s, StepOK cfg [] [] s (g x s)) :
    ∀ (l : List α) (s : DState),
      StepOK cfg [] [] s (l.foldl (fun t x => g x t) s) := by
  intro l
  induction l with
  | nil => intro s; exact stepOK_refl cfg s
  | cons x t ih =>
      intro s
      rw [List.foldl_cons]
      exact stepOK_trans cfg [] [] [] _ _ _ (hg x s) (ih (g x s))

theorem publishNewResults_ok (cfg : Config)
    (newResults newBuffer : List (DocId × Doc)) (s s' : DState)
    (h : publishNewResults cfg newResults newBuffer s = some s') :
    StepOK cfg [] [] s s' := by
  simp only [publishNewResults] at h
  set s0 := if (cfg.limit != 0) = true then { s with buffer := [] } else s with hs0
  have h0 : StepOK cfg [] [] s s0 := by
    rw [hs0]
    split
    · exact stepOK_mk cfg s _ [] (by simp) (deltaAddedOK_nil cfg) rfl rfl
        (le_refl _) rfl (fun _ hb => hb)
    · exact stepOK_refl cfg s
  cases hfa : (s0.published.filterMap (fun e =>
      if !hHas newResults e.1 then some e.1 else none)).foldl
      (fun acc i => acc.bind (removePublished cfg i)) (some s0) with
  | none =>
      rw [hfa] at h
      simp at h
  | some s1 =>
      rw [hfa] at h
      simp only [Option.some_bind] at h
      have hst1 := foldBind_ok cfg (removePublished cfg)
        (fun x t t' ht => removePublished_ok cfg x t t' ht) _ s0 s1 hfa
      cases hfb : newResults.foldl
          (fun acc e => acc.bind (handleDoc cfg e.1 (some e.2))) (some s1) with
      | none =>
          rw [hfb] at h
          simp at h
      | some s2 =>
          rw [hfb] at h
          simp only [Option.some_bind] at h
          have hst2 := foldBind_ok cfg
            (fun (e : DocId × Doc) => handleDoc cfg e.1 (some e.2))
            (fun x t t' ht => handleDoc_ok cfg x.1 (some x.2) t t' ht)
            _ s1 s2 hfb
          split at h
          · exact absurd h (by simp)
          · split at h
            · exact absurd h (by simp)
            · rw [Option.some.injEq] at h
              subst h
              have hst3 := foldPure_ok cfg
                (fun (e : DocId × Doc) t => addBuffered cfg e.1 e.2 t)
                (fun x t => addBuffered_ok cfg x.1 x.2 t) newBuffer s2
              have hst4 : StepOK cfg [] []
                  (newBuffer.foldl (fun t e => addBuffered cfg e.1 e.2 t) s2)
                  { newBuffer.foldl (fun t e => addBuffered cfg e.1 e.2 t) s2 with
                    safeAppendToBuffer := decide (newBuffer.length < cfg.limit) } :=
                stepOK_mk cfg _ _ [] (by simp) (deltaAddedOK_nil cfg) rfl rfl
                  (le_refl _) rfl (fun _ hb => hb)
              exact stepOK_trans cfg [] [] [] _ _ _ h0
                (stepOK_trans cfg [] [] [] _ _ _ hst1
                  (stepOK_trans cfg [] [] [] _ _ _ hst2
                    (stepOK_trans cfg [] [] [] _ _ _ hst3 hst4)))

theorem handleOplogEntryQuerying_ok (cfg : Config) (op : OplogOp) (s : DState) :
    StepOK cfg [] [] s (handleOplogEntryQuerying op s) :=
  stepOK_mk cfg s _ [] (by simp [handleOplogEntryQuerying])
    (deltaAddedOK_nil cfg) rfl rfl (le_refl _) rfl (fun _ hb => hb)

theorem fetchModifiedSync_ok (cfg : Config) (s : DState) :
    StepOK cfg [] [] s (fetchModifiedSync s) :=
  stepOK_mk cfg s _ [] (by simp [fetchModifiedSync]) (deltaAddedOK_nil cfg)
    rfl rfl (le_refl _) rfl (fun _ hb => hb)

theorem handleOplogEntrySteadyOrFetching_ok (cfg : Config) (op : OplogOp)
    (s s' : DState) (h : handleOplogEntrySteadyOrFetching cfg op s = some s') :
    StepOK cfg [] [] s s' := by
  simp only [handleOplogEntrySteadyOrFetching] at h
  split at h
  · rw [Option.some.injEq] at h
    subst h
    exact stepOK_mk cfg s _ [] (by simp) (deltaAddedOK_nil cfg) rfl rfl
      (le_refl _) rfl (fun _ hb => hb)
  · split at h
    · split at h
      · exact removeMatching_ok cfg op.id s s' h
      · rw [Option.some.injEq] at h; subst h; exact stepOK_refl cfg s
    · split at h
      · exact absurd h (by simp)
      · split at h
        · exact absurd h (by simp)
        · split at h
          · exact addMatching_ok cfg op.o s s' h
          · rw [Option.some.injEq] at h; subst h; exact stepOK_refl cfg s
    · split at h
      · exact handleDoc_ok cfg op.id _ s s' h
      · split at h
        · split at h
          · exact absurd h (by simp)
          · exact handleDoc_ok cfg op.id _ s s' h
        · split at h
          · have h1 : StepOK cfg [] [] s
                { s with needToFetch := nSet s.needToFetch op.id op.ts } :=
              stepOK_mk cfg s _ [] (by simp) (deltaAddedOK_nil cfg) rfl rfl
                (le_refl _) rfl (fun _ hb => hb)
            split at h
            · rw [Option.some.injEq] at h
              subst h
              exact stepOK_trans cfg [] [] [] _ _ _ h1
                (fetchModifiedSync_ok cfg _)
            · rw [Option.some.injEq] at h
              subst h
              exact h1
          · rw [Option.some.injEq] at h; subst h; exact stepOK_refl cfg s

theorem beSteady_ok (cfg : Config) (s : DState) :
    StepOK cfg [] s.writesToCommitWhenWeReachSteady s (beSteady s) := by
  refine ⟨fun _ hb => hb,
    ⟨[Emit.flushCommit s.writesToCommitWhenWeReachSteady], by simp [beSteady],
      deltaAddedOK_no_added cfg _ (by intro a b hm; simp at hm),
      by simp [commits]⟩,
    by simp [beSteady], le_refl _, fun _ _ => rfl, fun hs => hs,
    fun _ => Or.inr rfl⟩

theorem doneQuerying_ok (cfg : Config) (s s' : DState)
    (h : doneQuerying s = some s') :
    ∃ c, StepOK cfg [] c s s' := by
  simp only [doneQuerying] at h
  split at h
  · rw [Option.some.injEq] at h; subst h; exact ⟨[], stepOK_refl cfg s⟩
  · split at h
    · exact absurd h (by simp)
    · split at h
      · rw [Option.some.injEq] at h
        subst h
        refine ⟨[], stepOK_trans cfg [] [] [] _ _ _ ?_ (pollQuerySync_ok cfg _)⟩
        exact stepOK_mk cfg s _ [] (by simp) (deltaAddedOK_nil cfg) rfl rfl
          (le_refl _) rfl (fun _ hb => hb)
      · split at h
        · rw [Option.some.injEq] at h
          subst h
          exact ⟨s.writesToCommitWhenWeReachSteady, beSteady_ok cfg s⟩
        · rw [Option.some.injEq] at h
          subst h
          exact ⟨[], fetchModifiedSync_ok cfg s⟩

theorem runInitialQuery_ok (cfg : Config) (q : Nat → List Doc) (s s' : DState)
    (h : runInitialQuery cfg q s = some s') : ∃ c, StepOK cfg [] c s s' := by
  simp only [runInitialQuery] at h
  split at h
  · exact absurd h (by simp)
  · cases hfold : (q (cfg.limit * 2)).foldl
        (fun acc d => acc.bind (addMatching cfg d)) (some s) with
    | none =>
        rw [hfold] at h
        simp at h
    | some s1 =>
        rw [hfold] at h
        simp only [Option.some_bind] at h
        have hst1 := foldBind_ok cfg (addMatching cfg)
          (fun x t t' ht => addMatching_ok cfg x t t' ht) _ s s1 hfold
        split at h
        · exact absurd h (by simp)
        · obtain ⟨c, hdq⟩ := doneQuerying_ok cfg _ s' h
          refine ⟨c, stepOK_trans cfg [] [] c _ _ _
            (stepOK_trans cfg [] [] [] _ _ _ hst1 ?_) hdq⟩
          exact stepOK_mk cfg s1 _ [Emit.ready] (by simp)
            (deltaAddedOK_no_added cfg _ (by intro a b hm; simp at hm))
            (by simp [commits]) rfl (le_refl _) rfl (fun _ hb => hb)

theorem pollQueryBody_ok (cfg : Config) (q : Nat → List Doc) (s s' : DState)
    (h : pollQueryBody cfg q s = some s') : ∃ c, StepOK cfg [] c s s' := by
  simp only [pollQueryBody] at h
  cases hp : publishNewResults cfg
      (if (cfg.limit == 0) = true then
        (q (cfg.limit * 2)).map (fun d => (docIdOf d, d))
      else ((q (cfg.limit * 2)).take cfg.limit).map (fun d => (docIdOf d, d)))
      (if (cfg.limit == 0) = true then []
      else ((q (cfg.limit * 2)).drop cfg.limit).map (fun d => (docIdOf d, d)))
      s with
  | none =>
      rw [hp] at h
      simp at h
  | some s1 =>
      rw [hp] at h
      simp only [Option.some_bind] at h
      obtain ⟨c, hdq⟩ := doneQuerying_ok cfg s1 s' h
      exact ⟨c, stepOK_trans cfg [] [] c _ _ _
        (publishNewResults_ok cfg _ _ s s1 hp) hdq⟩

theorem commits_map_committed (l : List Nat) :
    commits (l.map Emit.committed) = l := by
  induction l with
  | nil => rfl
  | cons x t ih =>
      simp only [List.map_cons, commits, List.foldr_cons] at *
      rw [ih]

theorem fenceWrite_ok (cfg : Config) (w : Nat) (s : DState) :
    ∃ c, StepOK cfg [w] c s (fenceWrite w s) := by
  simp only [fenceWrite]
  split
  · next hstop =>
      refine ⟨[w], fun _ hb => hb,
        ⟨[Emit.committed w], rfl, ?_, by simp [commits]⟩,
        List.Perm.refl _, le_refl _, ?_, ?_, ?_⟩
      · exact deltaAddedOK_no_added cfg _ (by intro a b hm; simp at hm)
      · intro hp _; exact hp hstop
      · intro _; exact hstop
      · intro _; exact Or.inl hstop
  · next hstop =>
      split
      · next hsteady =>
          refine ⟨[w], fun _ hb => hb,
            ⟨[Emit.flushCommit [w]], rfl, ?_, by simp [commits]⟩,
            List.Perm.refl _, le_refl _, ?_, ?_, ?_⟩
          · exact deltaAddedOK_no_added cfg _ (by intro a b hm; simp at hm)
          · intro hp hs; exact hp hs
          · intro hs; exact hs
          · intro _; exact Or.inr (by simpa using hsteady)
      · next hsteady =>
          refine ⟨[], fun _ hb => hb,
            ⟨[], by simp, deltaAddedOK_nil cfg, rfl⟩,
            by simp, le_refl _, ?_, fun hs => hs, fun hne => absurd rfl hne⟩
          intro hp hs
          exact absurd hs (by simpa using hstop)

theorem stopDriver_ok (cfg : Config) (s : DState) :
    ∃ c, StepOK cfg [] c s (stopDriver s) := by
  simp only [stopDriver]
  split
  · exact ⟨[], stepOK_refl cfg s⟩
  · refine ⟨s.writesToCommitWhenWeReachSteady, fun hl _ => by simp,
      ⟨s.writesToCommitWhenWeReachSteady.map Emit.committed, rfl,
        ?_, commits_map_committed _⟩,
      ?_, le_refl _, fun _ _ => rfl, fun _ => rfl, fun _ => Or.inl rfl⟩
    · exact deltaAddedOK_no_added cfg _ (by
        intro a b hm
        simp only [List.mem_map] at hm
        obtain ⟨x, _, hx⟩ := hm
        exact absurd hx (by simp))
    · simp

theorem fetchBatchStart_ok (cfg : Config) (s s' : DState)
    (h : fetchBatchStart s = some s') : StepOK cfg [] [] s s' := by
  simp only [fetchBatchStart] at h
  split at h
  · split at h
    · exact absurd h (by simp)
    · rw [Option.some.injEq] at h
      subst h
      exact stepOK_mk cfg s _ [] (by simp) (deltaAddedOK_nil cfg) rfl rfl
        (Nat.le_succ _) rfl (fun _ hb => hb)
  · rw [Option.some.injEq] at h; subst h; exact stepOK_refl cfg s

theorem fetchResult_ok (cfg : Config) (g : Nat) (i : DocId) (d : Option Doc)
    (s s' : DState) (h : fetchResult cfg g i d s = some s') :
    StepOK cfg [] [] s s' := by
  simp only [fetchResult] at h
  split at h
  · exact handleDoc_ok cfg i d s s' h
  · rw [Option.some.injEq] at h; subst h; exact stepOK_refl cfg s

theorem fetchDrain_ok (cfg : Config) (s : DState) :
    ∃ c, StepOK cfg [] c s (fetchDrain s) := by
  simp only [fetchDrain]
  split
  · exact ⟨[], stepOK_refl cfg s⟩
  · split
    · exact ⟨[], stepOK_refl cfg s⟩
    · exact ⟨s.writesToCommitWhenWeReachSteady, beSteady_ok cfg s⟩

theorem stepAction_ok (cfg : Config) (a : Action) (s s' : DState)
    (h : stepAction cfg a s = some s') :
    ∃ c, StepOK cfg (captureOf a) c s s' := by
  cases a with
  | oplog n =>
      simp only [stepAction] at h
      split at h
      · rw [Option.some.injEq] at h
        subst h
        exact ⟨[], needToPollQuery_ok cfg s⟩
      · split at h
        · rw [Option.some.injEq] at h
          subst h
          exact ⟨[], handleOplogEntryQuerying_ok cfg n.op s⟩
        · exact ⟨[], handleOplogEntrySteadyOrFetching_ok cfg n.op s s' h⟩
  | fence w =>
      simp only [stepAction, Option.some.injEq] at h
      subst h
      exact fenceWrite_ok cfg w s
  | initialQuery q =>
      exact runInitialQuery_ok cfg q s s' h
  | pollBody q =>
      exact pollQueryBody_ok cfg q s s' h
  | batchStart =>
      exact ⟨[], fetchBatchStart_ok cfg s s' h⟩
  | fetched g i d =>
      exact ⟨[], fetchResult_ok cfg g i d s s' h⟩
  | drain =>
      simp only [stepAction, Option.some.injEq] at h
      subst h
      exact fetchDrain_ok cfg s
  | stopNow =>
      simp only [stepAction, Option.some.injEq] at h
      subst h
      exact stopDriver_ok cfg s

theorem captures_cons (a : Action) (t : List Action) :
    captures (a :: t) = captureOf a ++ captures t := by
  cases a <;> simp [captures, captureOf]

/-- Bundled trace invariants of any successful run of actions: the published
bound is preserved, the output only grows by well-formed emissions, write
tokens are conserved between the pending list and the committed trace, the
fetch generation never decreases, and `stopped` is absorbing with an empty
pending list. -/
theorem runActions_ok (cfg : Config) :
    ∀ (acts : List Action) (s s' : DState),
      runActions cfg acts s = some s' →
      (cfg.limit ≠ 0 → s.published.length ≤ cfg.limit →
        s'.published.length ≤ cfg.limit) ∧
      (∃ dl, s'.out = s.out ++ dl ∧ DeltaAddedOK cfg dl) ∧
      (commits s'.out ++ s'.writesToCommitWhenWeReachSteady).Perm
        (commits s.out ++ s.writesToCommitWhenWeReachSteady ++ captures acts) ∧
      s.fetchGeneration ≤ s'.fetchGeneration ∧
      ((s.stopped = true → s.writesToCommitWhenWeReachSteady = []) →
        s'.stopped = true → s'.writesToCommitWhenWeReachSteady = []) ∧
      (s.stopped = true → s'.stopped = true) := by
  intro acts
  induction acts with
  | nil =>
      intro s s' h
      simp only [runActions, List.foldl_nil, Option.some.injEq] at h
      subst h
      exact ⟨fun _ hb => hb, ⟨[], by simp, deltaAddedOK_nil cfg⟩,
        by simp [captures], le_refl _, fun hp => hp, fun hs => hs⟩
  | cons a t ih =>
      intro s s' h
      simp only [runActions, List.foldl_cons, Option.some_bind] at h
      cases hsa : stepAction cfg a s with
      | none =>
          rw [hsa] at h
          rw [foldBind_none] at h
          exact absurd h (by simp)
      | some s1 =>
          rw [hsa] at h
          obtain ⟨c, hA, ⟨dl, hout, hdl, hcdl⟩, hperm, hgen, hpend, hmono, _⟩ :=
            stepAction_ok cfg a s s1 hsa
          obtain ⟨iA, ⟨dl2, iout, idl⟩, iperm, igen, ipend, imono⟩ :=
            ih s1 s' h
          refine ⟨fun hl hb => iA hl (hA hl hb),
            ⟨dl ++ dl2, by rw [iout, hout, List.append_assoc],
              deltaAddedOK_append cfg _ _ hdl idl⟩, ?_,
            le_trans hgen igen, fun hp => ipend (hpend hp),
            fun hs => imono (hmono hs)⟩
          rw [captures_cons]
          have hc1 : commits s1.out = commits s.out ++ c := by
            rw [hout, commits_append, hcdl]
          refine iperm.trans ?_
          rw [hc1]
          have base : (c ++ s1.writesToCommitWhenWeReachSteady).Perm
              (s.writesToCommitWhenWeReachSteady ++ captureOf a) :=
            List.perm_append_comm.trans hperm
          have base2 : (commits s.out ++ c ++
              s1.writesToCommitWhenWeReachSteady).Perm
              (commits s.out ++
                (s.writesToCommitWhenWeReachSteady ++ captureOf a)) := by
            rw [List.append_assoc]
            exact base.append_left (commits s.out)
          have base3 := base2.append_right (captures t)
          simpa [List.append_assoc] using base3

/-- The numeric value of field `k`, 0 when absent (test fixtures only). -/
def numField (d : Doc) (k : String) : Int :=
  match dGet d k with
  | some (OVal.num n) => n
  | _ => 0

/-- A concrete sorter comparator: ascending by the numeric field `n`. -/
def cmpByN (d1 d2 : Doc) : Int := numField d1 "n" - numField d2 "n"

/-- A concrete limited configuration (limit 2, sort by `n`, match-all). -/
def cfgL2 : Config :=
  { limit := 2
    cmp := cmpByN
    docMatches := fun _ => true
    canBecomeTrueByModifier := fun _ => false
    projFn := fun d => d
    sharedProjFn := fun d => d }

/-- The same configuration with limit 1. -/
def cfgL1 : Config := { cfgL2 with limit := 1 }

/-- The same configuration unlimited. -/
def cfgL0 : Config := { cfgL2 with limit := 0 }

/-- A document with the given id and sort value. -/
def docN (i : DocId) (n : Int) : Doc :=
  [("_id", OVal.num i), ("n", OVal.num n)]

/-- A state with documents 1 and 2 published (test fixture). -/
def wState12 : DState :=
  { initState with published := [(1, docN 1 10), (2, docN 2 20)] }

/-- C1: for a limited query (limit > 0), every reachable driver state keeps
`published.size() <= limit`, and each of the cache-mutating operations
`addPublished`, `addMatching`, `removePublished`, `handleDoc` and
`publishNewResults` preserves `published.size() <= limit` whenever it
returns normally. -/
theorem C1_published_size_bounded (cfg : Config) (hl : 0 < cfg.limit) :
    (∀ i d s s', s.published.length ≤ cfg.limit →
      addPublished cfg i d s = some s' → s'.published.length ≤ cfg.limit) ∧
    (∀ d s s', s.published.length ≤ cfg.limit →
      addMatching cfg d s = some s' → s'.published.length ≤ cfg.limit) ∧
    (∀ i s s', s.published.length ≤ cfg.limit →
      removePublished cfg i s = some s' → s'.published.length ≤ cfg.limit) ∧
    (∀ i nd s s', s.published.length ≤ cfg.limit →
      handleDoc cfg i nd s = some s' → s'.published.length ≤ cfg.limit) ∧
    (∀ nr nb s s', s.published.length ≤ cfg.limit →
      publishNewResults cfg nr nb s = some s' →
      s'.published.length ≤ cfg.limit) ∧
    (∀ acts s s', s.published.length ≤ cfg.limit →
      runActions cfg acts s = some s' → s'.published.length ≤ cfg.limit) := by
  have hl' : cfg.limit ≠ 0 := by omega
  refine ⟨?_, ?_, ?_, ?_, ?_, ?_⟩
  · intro i d s s' hb h
    exact (addPublished_ok cfg i d s s' h).1 hl' hb
  · intro d s s' hb h
    exact (addMatching_ok cfg d s s' h).1 hl' hb
  · intro i s s' hb h
    exact (removePublished_ok cfg i s s' h).1 hl' hb
  · intro i nd s s' hb h
    exact (handleDoc_ok cfg i nd s s' h).1 hl' hb
  · intro nr nb s s' hb h
    exact (publishNewResults_ok cfg nr nb s s' h).1 hl' hb
  · intro acts s s' hb h
    exact (runActions_ok cfg acts s s' h).1 hl' hb

theorem C1_witness :
    ((addMatching cfgL2 (docN 3 30) wState12).getD initState).published.length ≤
      cfgL2.limit := by
  have h : addMatching cfgL2 (docN 3 30) wState12 =
      some ((addMatching cfgL2 (docN 3 30) wState12).getD initState) := by
    decide
  exact (C1_published_size_bounded cfgL2 (by decide)).2.1 (docN 3 30) wState12 _
    (by decide) h

/-- Every `added` emission in a list carries fields without the `_id` key. -/
def addedNoId (l : List Emit) : Prop :=
  ∀ i f, Emit.added i f ∈ l → dHasKey f "_id" = false

theorem addedNoId_extend (cfg : Config)
    (hproj : ∀ d, dHasKey d "_id" = false →
      dHasKey (cfg.projFn d) "_id" = false)
    (l dl : List Emit) (h1 : addedNoId l) (h2 : DeltaAddedOK cfg dl) :
    addedNoId (l ++ dl) := by
  intro i f hm
  rcases List.mem_append.mp hm with hm | hm
  · exact h1 i f hm
  · obtain ⟨d, hfd, hd⟩ := h2 i f hm
    rw [hfd]
    exact hproj d hd

/-- C10: `addPublished` emits `added(id, projFn(fields))` where `fields` is
the cloned document with its `_id` deleted before the publish projection is
applied; consequently, provided the projection introduces no `_id` of its
own, every `added` emission of every driver step carries a fields object
without the `_id` key. -/
theorem C10_added_fields_lack_id (cfg : Config)
    (hproj : ∀ d, dHasKey d "_id" = false →
      dHasKey (cfg.projFn d) "_id" = false) :
    (∀ i d s s', addPublished cfg i d s = some s' →
      ∃ rest, s'.out =
        s.out ++ Emit.added i (cfg.projFn (dDelete d "_id")) :: rest) ∧
    (∀ a s s', stepAction cfg a s = some s' → addedNoId s.out →
      addedNoId s'.out) ∧
    (∀ acts s s', runActions cfg acts s = some s' → addedNoId s.out →
      addedNoId s'.out) := by
  refine ⟨?_, ?_, ?_⟩
  · intro i d s s' h
    simp only [addPublished] at h
    split at h
    · split at h
      · exact absurd h (by simp)
      · split at h
        · exact absurd h (by simp)
        · next ovId hmax =>
            split at h
            · exact absurd h (by simp)
            · next ovDoc hget =>
                split at h
                · exact absurd h (by simp)
                · rw [Option.some.injEq] at h
                  subst h
                  refine ⟨[Emit.removed ovId], ?_⟩
                  simp only [addBuffered]
                  split
                  · split <;> simp
                  · simp
    · rw [Option.some.injEq] at h
      subst h
      exact ⟨[], by simp⟩
  · intro a s s' h h0
    obtain ⟨c, _, ⟨dl, hout, hdl, _⟩, _⟩ := stepAction_ok cfg a s s' h
    rw [hout]
    exact addedNoId_extend cfg hproj s.out dl h0 hdl
  · intro acts s s' h h0
    obtain ⟨_, ⟨dl, hout, hdl⟩, _⟩ := runActions_ok cfg acts s s' h
    rw [hout]
    exact addedNoId_extend cfg hproj s.out dl h0 hdl

theorem C10_witness :
    addedNoId ((stepAction cfgL2
      (Action.oplog { dropCollection := false
                      op := { kind := OpKind.ins, id := 5, o := docN 5 50,
                              ts := 1 } })
      { wState12 with phase := Phase.steady }).getD initState).out := by
  have h : stepAction cfgL2
      (Action.oplog { dropCollection := false
                      op := { kind := OpKind.ins, id := 5, o := docN 5 50,
                              ts := 1 } })
      { wState12 with phase := Phase.steady } =
      some ((stepAction cfgL2
        (Action.oplog { dropCollection := false
                        op := { kind := OpKind.ins, id := 5, o := docN 5 50,
                                ts := 1 } })
        { wState12 with phase := Phase.steady }).getD initState) := by
    decide
  refine (C10_added_fields_lack_id cfgL2 (fun d hd => hd)).2.1 _ _ _ h ?_
  intro i f hm
  simp [wState12, initState] at hm

theorem runActions_append (cfg : Config) (l1 l2 : List Action) (s : DState) :
    runActions cfg (l1 ++ l2) s =
      (runActions cfg l1 s).bind (fun s1 => runActions cfg l2 s1) := by
  simp only [runActions, List.foldl_append]
  cases h1 : l1.foldl (fun acc a => acc.bind (stepAction cfg a)) (some s) with
  | none => rw [foldBind_none]; rfl
  | some s1 => rfl

/-- C6: the fetch generation never decreases along any run; each fetch batch
and each `pollQuery` increments it; a fetch completion mutates state (via
`handleDoc`) only when the driver is not stopped, the phase is still
FETCHING, and the generation still equals the one observed at launch; and a
completion whose generation was superseded by a subsequent `pollQuery`
leaves the state untouched. -/
theorem C6_fetch_generation (cfg : Config) :
    (∀ a s s', stepAction cfg a s = some s' →
      s.fetchGeneration ≤ s'.fetchGeneration) ∧
    (∀ acts s s', runActions cfg acts s = some s' →
      s.fetchGeneration ≤ s'.fetchGeneration) ∧
    (∀ s : DState, s.stopped = false →
      (pollQuerySync s).fetchGeneration = s.fetchGeneration + 1) ∧
    (∀ s s', s.stopped = false → s.needToFetch ≠ [] →
      s.phase = Phase.fetching → fetchBatchStart s = some s' →
      s'.fetchGeneration = s.fetchGeneration + 1) ∧
    (∀ g i d s, (s.stopped = true ∨ s.phase ≠ Phase.fetching ∨
        s.fetchGeneration ≠ g) →
      fetchResult cfg g i d s = some s) ∧
    (∀ g i d s, s.stopped = false → s.phase = Phase.fetching →
      s.fetchGeneration = g → fetchResult cfg g i d s = handleDoc cfg i d s) ∧
    (∀ g i d s3 acts s2, s3.stopped = false → g ≤ s3.fetchGeneration →
      runActions cfg acts (pollQuerySync s3) = some s2 →
      fetchResult cfg g i d s2 = some s2) := by
  have hstale : ∀ g i d (s : DState), (s.stopped = true ∨
      s.phase ≠ Phase.fetching ∨ s.fetchGeneration ≠ g) →
      fetchResult cfg g i d s = some s := by
    intro g i d s hs
    simp only [fetchResult]
    split
    · next hc =>
        simp only [Bool.and_eq_true, Bool.not_eq_true', beq_iff_eq] at hc
        rcases hs with hs | hs | hs
        · exact absurd hc.1.1 (by simp [hs])
        · exact absurd hc.1.2 hs
        · exact absurd hc.2 hs
    · rfl
  have hgenstep : ∀ a (s s' : DState), stepAction cfg a s = some s' →
      s.fetchGeneration ≤ s'.fetchGeneration := by
    intro a s s' h
    obtain ⟨c, hok⟩ := stepAction_ok cfg a s s' h
    exact hok.2.2.2.1
  have hgenrun : ∀ acts (s s' : DState), runActions cfg acts s = some s' →
      s.fetchGeneration ≤ s'.fetchGeneration := by
    intro acts s s' h
    exact (runActions_ok cfg acts s s' h).2.2.2.1
  have hpoll : ∀ s : DState, s.stopped = false →
      (pollQuerySync s).fetchGeneration = s.fetchGeneration + 1 := by
    intro s hs
    simp [pollQuerySync, hs]
  refine ⟨hgenstep, hgenrun, hpoll, ?_, hstale, ?_, ?_⟩
  · intro s s' hs hne hph h
    have hne' : s.needToFetch.isEmpty = false := by
      cases hf : s.needToFetch with
      | nil => exact absurd hf hne
      | cons a t => rfl
    simp only [fetchBatchStart, hs, hne', hph] at h
    simp only [Bool.not_false, Bool.and_self, if_true] at h
    rw [if_neg (by simp)] at h
    rw [Option.some.injEq] at h
    subst h
    rfl
  · intro g i d s hs hph hg
    simp [fetchResult, hs, hph, hg]
  · intro g i d s3 acts s2 hs3 hle hrun
    have h1 : g < (pollQuerySync s3).fetchGeneration := by
      rw [hpoll s3 hs3]
      omega
    have h2 := hgenrun acts _ s2 hrun
    exact hstale g i d s2 (Or.inr (Or.inr (by omega)))

theorem C6_witness :
    fetchResult cfgL2 0 1 none
      { initState with phase := Phase.fetching, fetchGeneration := 2 } =
    some { initState with phase := Phase.fetching, fetchGeneration := 2 } :=
  (C6_fetch_generation cfgL2).2.2.2.2.1 0 1 none
    { initState with phase := Phase.fetching, fetchGeneration := 2 }
    (Or.inr (Or.inr (by decide)))

/-- C5: a write token captured while the driver is neither stopped nor
STEADY is appended to `writesToCommitWhenWeReachSteady` without committing
anything; the QUERYING-to-FETCHING transition neither commits nor touches
the pending list; `beSteady` takes the whole pending list, clears it, and
commits all of its tokens through a single `multiplexer.onFlush`
registration; `stop` commits every still-pending token immediately; any step
that commits a new token ends stopped or in STEADY; and over any trace that
stops the driver, every captured token is committed exactly once. -/
theorem C5_write_tokens_committed_once (cfg : Config) :
    (∀ (w : Nat) (s : DState), s.stopped = false → s.phase ≠ Phase.steady →
      fenceWrite w s = { s with writesToCommitWhenWeReachSteady :=
        s.writesToCommitWhenWeReachSteady ++ [w] }) ∧
    (∀ s : DState, (fetchModifiedSync s).writesToCommitWhenWeReachSteady =
        s.writesToCommitWhenWeReachSteady ∧
      (fetchModifiedSync s).out = s.out) ∧
    (∀ s : DState, beSteady s =
      { s with phase := Phase.steady
               writesToCommitWhenWeReachSteady := []
               out := s.out ++
                 [Emit.flushCommit s.writesToCommitWhenWeReachSteady] }) ∧
    (∀ s : DState, s.stopped = false →
      commits (stopDriver s).out =
        commits s.out ++ s.writesToCommitWhenWeReachSteady ∧
      (stopDriver s).writesToCommitWhenWeReachSteady = []) ∧
    (∀ a s s' (w : Nat), stepAction cfg a s = some s' → w ∉ commits s.out →
      w ∈ commits s'.out → s'.stopped = true ∨ s'.phase = Phase.steady) ∧
    (∀ acts s s', s.out = [] → s.writesToCommitWhenWeReachSteady = [] →
      s.stopped = false → (captures acts).Nodup → Action.stopNow ∈ acts →
      runActions cfg acts s = some s' →
      ∀ w ∈ captures acts, (commits s'.out).count w = 1) := by
  refine ⟨?_, fun s => ⟨rfl, rfl⟩, fun s => rfl, ?_, ?_, ?_⟩
  · intro w s hs hns
    simp [fenceWrite, hs, hns]
  · intro s hs
    refine ⟨?_, ?_⟩
    · simp only [stopDriver, hs, Bool.false_eq_true, if_false]
      rw [commits_append, commits_map_committed]
    · simp [stopDriver, hs]
  · intro a s s' w h hnotin hin
    obtain ⟨c, _, ⟨dl, hout, _, hcdl⟩, _, _, _, _, hG⟩ := stepAction_ok cfg a s s' h
    rw [hout, commits_append, hcdl] at hin
    rcases List.mem_append.mp hin with hin | hin
    · exact absurd hin hnotin
    · rcases hG (List.ne_nil_of_mem hin) with hc | hc
      · exact Or.inl hc
      · exact Or.inr hc
  · intro acts s s' hout0 hpend0 hstop0 hnd hmem hrun w hw
    obtain ⟨l1, l2, hacts⟩ := List.append_of_mem hmem
    subst hacts
    obtain ⟨_, _, hperm, _, hpendimp, _⟩ :=
      runActions_ok cfg (l1 ++ Action.stopNow :: l2) s s' hrun
    rw [runActions_append] at hrun
    cases h1 : runActions cfg l1 s with
    | none =>
        rw [h1] at hrun
        simp at hrun
    | some sMid =>
        rw [h1] at hrun
        simp only [Option.some_bind] at hrun
        have hrun2 : runActions cfg l2 (stopDriver sMid) = some s' := by
          simpa only [runActions, List.foldl_cons, stepAction,
            Option.some_bind] using hrun
        have hstopMid : (stopDriver sMid).stopped = true := by
          simp only [stopDriver]
          split
          · next hsm => exact hsm
          · rfl
        have hs' : s'.stopped = true :=
          (runActions_ok cfg l2 _ s' hrun2).2.2.2.2.2 hstopMid
        have hpend' : s'.writesToCommitWhenWeReachSteady = [] :=
          hpendimp (fun hc => absurd hc (by simp [hstop0])) hs'
        rw [hout0, hpend0, hpend'] at hperm
        have hperm' : (commits s'.out).Perm
            (captures (l1 ++ Action.stopNow :: l2)) := by
          simpa [commits] using hperm
        rw [hperm'.count_eq]
        exact List.count_eq_one_of_mem hnd hw

theorem C5_witness :
    (commits ((runActions cfgL2 [Action.fence 7, Action.stopNow]
      initState).getD initState).out).count 7 = 1 := by
  have h : runActions cfgL2 [Action.fence 7, Action.stopNow] initState =
      some ((runActions cfgL2 [Action.fence 7, Action.stopNow]
        initState).getD initState) := by
    decide
  exact (C5_write_tokens_committed_once cfgL2).2.2.2.2.2
    [Action.fence 7, Action.stopNow] initState _ rfl rfl rfl (by decide)
    (by simp) h 7 (by decide)

theorem maxPublishedDoc_eq (cfg : Config) (s : DState) (hl : cfg.limit ≠ 0) :
    maxPublishedDoc cfg s = heapMaxDoc cfg s.published := by
  simp only [maxPublishedDoc]
  split
  · rfl
  · next hc =>
      have hpe : s.published = [] := by
        cases hp : s.published with
        | nil => rfl
        | cons a t =>
            exact absurd (by
              simp only [hp, bne_iff_ne, ne_eq, Bool.and_eq_true,
                decide_eq_true_eq]
              exact ⟨hl, by simp⟩) hc
      rw [hpe]
      rfl

theorem maxBufferedDoc_eq (cfg : Config) (s : DState) (hl : cfg.limit ≠ 0) :
    maxBufferedDoc cfg s = heapMaxDoc cfg s.buffer := by
  simp only [maxBufferedDoc]
  split
  · rfl
  · next hc =>
      have hpe : s.buffer = [] := by
        cases hp : s.buffer with
        | nil => rfl
        | cons a t =>
            exact absurd (by
              simp only [hp, bne_iff_ne, ne_eq, Bool.and_eq_true,
                decide_eq_true_eq]
              exact ⟨hl, by simp⟩) hc
      rw [hpe]
      rfl

/-- Publication condition of C3, phrased as the claim states it: the query
is unlimited, or published has room, or the document sorts strictly below
the published maximum. -/
def claimPublishCond (cfg : Config) (d : Doc) (s : DState) : Bool :=
  cfg.limit == 0 || s.published.length < cfg.limit ||
    cmpLt cfg d (heapMaxDoc cfg s.published)

/-- Buffering condition of C3, phrased as the claim states it: the buffer is
safe to append to and has room, or a buffer maximum exists and the document
sorts at or below it. -/
def claimBufferCond (cfg : Config) (d : Doc) (s : DState) : Bool :=
  (s.safeAppendToBuffer && s.buffer.length < cfg.limit) ||
    cmpLe cfg d (heapMaxDoc cfg s.buffer)

/-- C3: for a matching document whose id is not yet cached, `addMatching`
publishes it if and only if the query is unlimited, or `published` has fewer
than `limit` entries, or the document sorts strictly below the published
maximum; failing that it buffers it if and only if `safeAppendToBuffer`
holds with buffer room, or a buffer maximum exists and the document sorts at
or below it; in every remaining case it caches nothing and clears
`safeAppendToBuffer`. -/
theorem C3_addMatching_classification (cfg : Config) (d : Doc) (s : DState)
    (hp : hHas s.published (docIdOf d) = false)
    (hb : cfg.limit ≠ 0 → hHas s.buffer (docIdOf d) = false) :
    addMatching cfg d s =
      (if claimPublishCond cfg d s then addPublished cfg (docIdOf d) d s
      else if claimBufferCond cfg d s then
        some (addBuffered cfg (docIdOf d) d s)
      else some { s with safeAppendToBuffer := false }) := by
  have hg2 : (cfg.limit != 0 && hHas s.buffer (docIdOf d)) = false := by
    by_cases hl : cfg.limit = 0
    · simp [hl]
    · simp [hb hl]
  have hTP : (cfg.limit == 0 || decide (s.published.length < cfg.limit) ||
      cmpLt cfg d (maxPublishedDoc cfg s)) = claimPublishCond cfg d s := by
    by_cases hl : cfg.limit = 0
    · simp [claimPublishCond, hl]
    · rw [maxPublishedDoc_eq cfg s hl]
      rfl
  simp only [addMatching, hp, Bool.false_eq_true, if_false, hg2, hTP]
  by_cases hc : claimPublishCond cfg d s = true
  · simp [hc]
  · have hl : cfg.limit ≠ 0 := by
      intro h0
      exact hc (by simp [claimPublishCond, h0])
    have hBC : ((!claimPublishCond cfg d s && s.safeAppendToBuffer &&
        decide (s.buffer.length < cfg.limit)) ||
        (!claimPublishCond cfg d s && cmpLe cfg d (maxBufferedDoc cfg s))) =
        claimBufferCond cfg d s := by
      rw [maxBufferedDoc_eq cfg s hl]
      simp only [Bool.not_eq_true] at hc
      simp [claimBufferCond, hc, Bool.and_assoc]
    rw [hBC]

theorem C3_witness :
    addMatching cfgL2 (docN 3 30) wState12 =
      some { wState12 with safeAppendToBuffer := false } := by
  have h := C3_addMatching_classification cfgL2 (docN 3 30) wState12
    (by decide) (fun _ => by decide)
  rw [if_neg (by decide), if_neg (by decide)] at h
  exact h

/-- Row-one condition of the C2 table, as the claim states it: the query is
unlimited, or the buffer is empty, or cmp(newDoc, minBuffered) ≤ 0. -/
def claimStaysPublished (cfg : Config) (nd : Doc) (s : DState) : Bool :=
  cfg.limit == 0 || s.buffer.isEmpty || cmpLe cfg nd (heapMinDoc cfg s.buffer)

/-- Re-buffering condition after `removePublished` in row one of the C2
table: `safeAppendToBuffer` holds or cmp(newDoc, maxBuffered) ≤ 0, evaluated
in the state `removePublished` left behind. -/
def claimReBuffer (cfg : Config) (nd : Doc) (s1 : DState) : Bool :=
  s1.safeAppendToBuffer || cmpLe cfg nd (heapMaxDoc cfg s1.buffer)

theorem staysPublished_eq (cfg : Config) (nd : Doc) (s : DState) :
    (cfg.limit == 0 || s.buffer.length == 0 ||
      cmpLe cfg nd (minBufferedDoc cfg s)) = claimStaysPublished cfg nd s := by
  simp only [claimStaysPublished]
  by_cases hl : cfg.limit = 0
  · simp [hl]
  · cases hbuf : s.buffer with
    | nil => simp [hbuf]
    | cons a t =>
        have h1 : minBufferedDoc cfg s = heapMinDoc cfg s.buffer := by
          simp only [minBufferedDoc]
          rw [if_pos]
          simp only [hbuf, bne_iff_ne, ne_eq, Bool.and_eq_true]
          exact ⟨by simpa using hl, by simp⟩
        rw [h1, hbuf]
        simp

/-- C2: `handleDoc` on a matching, already-cached document follows the
spec's reclassification table. A published id goes through `changePublished`
exactly when the query is unlimited, or the buffer is empty, or the new
document sorts at or below the buffer minimum; otherwise it is removed from
`published` and, when `safeAppendToBuffer` holds or it sorts at or below the
buffer maximum, moved into the buffer, or else only `safeAppendToBuffer` is
cleared. A buffered id is removed from the buffer silently (a raw heap
removal, never scheduling a repoll), published exactly when it sorts
strictly below the published maximum, re-inserted into the buffer when
`safeAppendToBuffer` holds or it sorts at or below the buffer maximum, and
otherwise dropped with `safeAppendToBuffer` cleared. -/
theorem C2_handleDoc_reclassification (cfg : Config) (i : DocId) (nd : Doc)
    (s : DState) (hmatch : cfg.docMatches nd = true) :
    (hHas s.published i = true →
      handleDoc cfg i (some nd) s =
        (if claimStaysPublished cfg nd s then
          some (changePublished cfg i (hGet s.published i) nd s)
        else
          (removePublished cfg i s).bind (fun s1 =>
            if claimReBuffer cfg nd s1 then some (addBuffered cfg i nd s1)
            else some { s1 with safeAppendToBuffer := false }))) ∧
    (hHas s.published i = false → cfg.limit ≠ 0 → hHas s.buffer i = true →
      s.published ≠ [] →
      ∃ mp, heapMaxDoc cfg s.published = some mp ∧
        handleDoc cfg i (some nd) s =
          (if cfg.cmp nd mp < 0 then
            addPublished cfg i nd { s with buffer := hRemove s.buffer i }
          else if s.safeAppendToBuffer ||
              cmpLe cfg nd (maxBufferedDocNE cfg (hRemove s.buffer i)) then
            some { s with buffer := hSet (hRemove s.buffer i) i nd }
          else some { s with buffer := hRemove s.buffer i
                             safeAppendToBuffer := false })) := by
  constructor
  · intro hpub
    simp only [handleDoc, hpub, hmatch, Bool.true_or, Bool.not_true,
      Bool.false_eq_true, if_false, if_true, staysPublished_eq]
    rfl
  · intro hpub hl hbuf hpe
    have hmp : ∃ mp, heapMaxDoc cfg s.published = some mp := by
      cases hme : maxEltEntry cfg.cmp s.published with
      | none =>
          have := maxEltEntry_isSome cfg.cmp s.published hpe
          rw [hme] at this
          exact absurd this (by simp)
      | some e =>
          have hhase := hHas_of_mem _ e (maxEltEntry_mem cfg.cmp _ e hme)
          have hg := hGet_isSome_of_has s.published e.1 hhase
          cases hget : hGet s.published e.1 with
          | none => rw [hget] at hg; exact absurd hg (by simp)
          | some v =>
              exact ⟨v, by simp [heapMaxDoc, maxElementId, hme, hget]⟩
    obtain ⟨mp, hmpEq⟩ := hmp
    refine ⟨mp, hmpEq, ?_⟩
    have hbb : (cfg.limit != 0 && hHas s.buffer i) = true := by
      simp only [Bool.and_eq_true, bne_iff_ne, ne_eq]
      exact ⟨hl, hbuf⟩
    simp only [handleDoc, hpub, hmatch, hbb, Bool.false_or, Bool.not_true,
      Bool.false_eq_true, if_false, if_true, hmpEq]
    by_cases htp : cfg.cmp nd mp < 0
    · simp [htp]
    · simp [htp]

theorem C2_witness :
    handleDoc cfgL2 1 (some (docN 1 15)) wState12 =
      some (changePublished cfgL2 1 (hGet wState12.published 1)
        (docN 1 15) wState12) := by
  have h := (C2_handleDoc_reclassification cfgL2 1 (docN 1 15) wState12
    (by decide)).1 (by decide)
  rw [if_pos (by decide)] at h
  exact h

/-- C4: for an update oplog entry handled in FETCHING or STEADY with the id
neither queued for fetch nor being fetched: a modifier (an `op.o` carrying a
set or unset operator) without custom-type marker fields, applied to a
cached id, clones the cached document, applies the modifier locally,
reprojects with the shared projection, and calls `handleDoc`; otherwise,
whenever the modifier cannot be applied locally or
`matcher.canBecomeTrueByModifier` holds, the handler records
`needToFetch[id] = op.ts` and, when the phase is STEADY, transitions to
FETCHING (the sync part of starting the fetch loop); an applicable modifier
on an uncached id that cannot make the selector true changes nothing. -/
theorem C4_update_entry_handling (cfg : Config) (i : DocId) (o : Doc)
    (ts : Nat) (s : DState)
    (hphase : s.phase = Phase.fetching ∨ s.phase = Phase.steady)
    (hq : ((match s.currentlyFetching with
            | some cf => nHas cf i
            | none => false) || nHas s.needToFetch i) = false)
    (hmod : (dHasKey o "$set" || dHasKey o "$unset") = true) :
    (modifierCanBeDirectlyApplied o = true →
      (hHas s.published i || (cfg.limit != 0 && hHas s.buffer i)) = true →
      ∃ cached, (if hHas s.published i then hGet s.published i
                 else hGet s.buffer i) = some cached ∧
        handleOplogEntrySteadyOrFetching cfg ⟨OpKind.upd, i, o, ts⟩ s =
          handleDoc cfg i
            (some (cfg.sharedProjFn
              (applyModify (dSet cached "_id" (OVal.num i)) o))) s) ∧
    ((modifierCanBeDirectlyApplied o = false ∨
        (hHas s.published i || (cfg.limit != 0 && hHas s.buffer i)) = false) →
      (modifierCanBeDirectlyApplied o = false ∨
        cfg.canBecomeTrueByModifier o = true) →
      handleOplogEntrySteadyOrFetching cfg ⟨OpKind.upd, i, o, ts⟩ s =
        some (if s.phase = Phase.steady then
          { s with needToFetch := nSet s.needToFetch i ts
                   phase := Phase.fetching }
        else { s with needToFetch := nSet s.needToFetch i ts })) ∧
    (modifierCanBeDirectlyApplied o = true →
      (hHas s.published i || (cfg.limit != 0 && hHas s.buffer i)) = false →
      cfg.canBecomeTrueByModifier o = false →
      handleOplogEntrySteadyOrFetching cfg ⟨OpKind.upd, i, o, ts⟩ s =
        some s) := by
  have hir : (!dHasKey o "$set" && !dHasKey o "$unset") = false := by
    cases ha : dHasKey o "$set" <;> cases hb : dHasKey o "$unset" <;>
      simp_all
  refine ⟨?_, ?_, ?_⟩
  · intro hca hcached
    cases hpb : hHas s.published i with
    | true =>
        have hg := hGet_isSome_of_has s.published i hpb
        cases hget : hGet s.published i with
        | none => rw [hget] at hg; exact absurd hg (by simp)
        | some cached =>
            refine ⟨cached, by simp [hpb, hget], ?_⟩
            simp [handleOplogEntrySteadyOrFetching, hq, hir, hca, hpb, hget]
    | false =>
        have hl0 : ¬ cfg.limit = 0 := by
          intro hc
          rw [hpb, hc] at hcached
          simp at hcached
        have hbufhas : hHas s.buffer i = true := by
          cases hx : hHas s.buffer i with
          | false => rw [hpb, hx] at hcached; simp at hcached
          | true => rfl
        have hg := hGet_isSome_of_has s.buffer i hbufhas
        cases hget : hGet s.buffer i with
        | none => rw [hget] at hg; exact absurd hg (by simp)
        | some cached =>
            refine ⟨cached, by simp [hpb, hget], ?_⟩
            simp [handleOplogEntrySteadyOrFetching, hq, hir, hca, hpb,
              hbufhas, hl0, hget]
  · intro hnc hfetch
    rcases hfetch with hf | hf
    · rcases hnc with hnc | hnc <;>
        cases hph : s.phase <;>
          simp [handleOplogEntrySteadyOrFetching, hq, hir, hnc, hf,
            fetchModifiedSync, hph]
    · rcases hnc with hnc | hnc <;>
        cases hph : s.phase <;>
          simp [handleOplogEntrySteadyOrFetching, hq, hir, hnc, hf,
            fetchModifiedSync, hph]
  · intro hca hcached hcb
    simp [handleOplogEntrySteadyOrFetching, hq, hir, hca, hcached, hcb]

/-- A configuration whose matcher reports that any modifier can make the
selector true (test fixture for the refetch path). -/
def cfgC4 : Config := { cfgL2 with canBecomeTrueByModifier := fun _ => true }

theorem C4_witness :
    handleOplogEntrySteadyOrFetching cfgC4
      ⟨OpKind.upd, 9, [("$set", OVal.obj [("status", 1)])], 4⟩
      { wState12 with phase := Phase.steady } =
    some (if ({ wState12 with phase := Phase.steady } : DState).phase =
        Phase.steady then
      { { wState12 with phase := Phase.steady } with
        needToFetch := nSet ({ wState12 with
          phase := Phase.steady } : DState).needToFetch 9 4
        phase := Phase.fetching }
    else { { wState12 with phase := Phase.steady } with
      needToFetch := nSet ({ wState12 with
        phase := Phase.steady } : DState).needToFetch 9 4 }) := by
  exact (C4_update_entry_handling cfgC4 9 [("$set", OVal.obj [("status", 1)])]
    4 { wState12 with phase := Phase.steady } (Or.inr rfl) (by decide)
    (by decide)).2.1 (Or.inr (by decide)) (Or.inr (by decide))

theorem addBuffered_stopped (cfg : Config) (i : DocId) (d : Doc) (s : DState) :
    (addBuffered cfg i d s).stopped = s.stopped := by
  simp only [addBuffered]
  split
  · split <;> rfl
  · rfl

theorem addPublished_stopped (cfg : Config) (i : DocId) (d : Doc)
    (s s' : DState) (h : addPublished cfg i d s = some s') :
    s'.stopped = s.stopped := by
  simp only [addPublished] at h
  split at h
  · split at h
    · exact absurd h (by simp)
    · split at h
      · exact absurd h (by simp)
      · split at h
        · exact absurd h (by simp)
        · split at h
          · exact absurd h (by simp)
          · rw [Option.some.injEq] at h
            subst h
            rw [addBuffered_stopped]
  · rw [Option.some.injEq] at h
    subst h
    rfl

theorem addMatching_stopped (cfg : Config) (d : Doc) (s s' : DState)
    (h : addMatching cfg d s = some s') : s'.stopped = s.stopped := by
  simp only [addMatching] at h
  split at h
  · exact absurd h (by simp)
  · split at h
    · exact absurd h (by simp)
    · split at h
      · exact addPublished_stopped cfg _ d s s' h
      · split at h
        · rw [Option.some.injEq] at h
          subst h
          rw [addBuffered_stopped]
        · rw [Option.some.injEq] at h
          subst h
          rfl

theorem foldBind_pres {α : Type} (P : DState → Prop)
    (f : α → DState → Option DState)
    (hf : ∀ x s s', f x s = some s' → P s → P s') :
    ∀ (l : List α) (s s' : DState),
      l.foldl (fun acc x => acc.bind (f x)) (some s) = some s' →
      P s → P s' := by
  intro l
  induction l with
  | nil =>
      intro s s' h hp
      rw [List.foldl_nil, Option.some.injEq] at h
      subst h
      exact hp
  | cons x t ih =>
      intro s s' h hp
      rw [List.foldl_cons] at h
      simp only [Option.some_bind] at h
      cases hx : f x s with
      | none =>
          rw [hx] at h
          rw [foldBind_none] at h
          exact absurd h (by simp)
      | some s1 =>
          rw [hx] at h
          exact ih s1 s' h (hf x s s1 hx hp)

/-- The four-document initial result set of the spec's scenario 2. -/
def q4 : Nat → List Doc :=
  fun _ => [docN 1 10, docN 2 20, docN 3 30, docN 4 40]

/-- C8: `runInitialQuery` queries with limit twice the configured limit,
folds `addMatching` over every returned document, sets
`safeAppendToBuffer` to true exactly when strictly fewer than `limit * 2`
documents came back, and then emits `ready` and runs `doneQuerying`; in the
concrete limit-2 scenario with four initial documents, `safeAppendToBuffer`
ends up false and ids 1 and 2 are published. -/
theorem C8_runInitialQuery (cfg : Config) :
    (∀ (q : Nat → List Doc) (s : DState), s.stopped = false →
      runInitialQuery cfg q s =
        ((q (cfg.limit * 2)).foldl
          (fun acc d => acc.bind (addMatching cfg d)) (some s)).bind
          (fun s1 => doneQuerying { s1 with
            safeAppendToBuffer :=
              decide ((q (cfg.limit * 2)).length < cfg.limit * 2)
            out := s1.out ++ [Emit.ready] })) ∧
    (((runInitialQuery cfgL2 q4 initState).getD initState).safeAppendToBuffer =
        false ∧
      ((runInitialQuery cfgL2 q4 initState).getD
        initState).published.map Prod.fst = [1, 2] ∧
      Emit.ready ∈ ((runInitialQuery cfgL2 q4 initState).getD initState).out ∧
      (runInitialQuery cfgL2 q4 initState).isSome = true) := by
  constructor
  · intro q s hs
    simp only [runInitialQuery, hs, Bool.false_eq_true, if_false]
    cases hfold : (q (cfg.limit * 2)).foldl
        (fun acc d => acc.bind (addMatching cfg d)) (some s) with
    | none => rfl
    | some s1 =>
        have hs1 : s1.stopped = false :=
          foldBind_pres (fun t => t.stopped = false) (addMatching cfg)
            (fun x u u' hu hp => by
              show u'.stopped = false
              rw [addMatching_stopped cfg x u u' hu]
              exact hp)
            _ s s1 hfold hs
        simp only [Option.some_bind, hs1, Bool.false_eq_true, if_false]
  · exact ⟨by decide, by decide, by decide, by decide⟩

theorem C8_witness :
    runInitialQuery cfgL2 q4 initState =
      ((q4 (cfgL2.limit * 2)).foldl
        (fun acc d => acc.bind (addMatching cfgL2 d)) (some initState)).bind
        (fun s1 => doneQuerying { s1 with
          safeAppendToBuffer :=
            decide ((q4 (cfgL2.limit * 2)).length < cfgL2.limit * 2)
          out := s1.out ++ [Emit.ready] }) :=
  (C8_runInitialQuery cfgL2).1 q4 initState rfl

theorem removeBuffered_published (cfg : Config) (i : DocId) (s : DState) :
    (removeBuffered cfg i s).published = s.published := by
  simp only [removeBuffered, needToPollQuery, pollQuerySync]
  repeat' split
  all_goals rfl

theorem addPublished_isSome_of_lt (cfg : Config) (i : DocId) (d : Doc)
    (s : DState) (hlen : s.published.length < cfg.limit) :
    (addPublished cfg i d s).isSome = true := by
  simp only [addPublished]
  split
  · next hc =>
      exfalso
      have := length_hSet_le s.published i (cfg.sharedProjFn d)
      simp only [Bool.and_eq_true, bne_iff_ne, ne_eq, decide_eq_true_eq] at hc
      omega
  · rfl

/-- A limited driver state whose published set holds one document while the
buffer is empty, `safeAppendToBuffer` is false and the phase is STEADY: the
configuration in which the `removePublished` assertion fires. -/
def wC9 : DState :=
  { initState with published := [(5, docN 5 50)], phase := Phase.steady }

/-- C9 counterexample: `removeMatching` on a limited query (limit = 1) can
throw even though the claim allows a throw only in the unlimited case; here
the id IS published, the buffer is empty, `safeAppendToBuffer` is false and
the phase is STEADY, so `removePublished` hits its "buffer can be empty only
if published contains the whole matching set" assertion. -/
theorem C9_counterexample :
    removeMatching cfgL1 5 wC9 = none ∧ cfgL1.limit ≠ 0 ∧
      hHas wC9.published 5 = true := by
  refine ⟨by decide, by decide, by decide⟩

/-- C9 (amended): for a limited query, `removeMatching` on an id in neither
the published heap nor the buffer changes no state, emits nothing and raises
no error; and `removeMatching` throws exactly when the query is unlimited
and the id is not published, or when the id is published and removing it
leaves a limited published set below the limit with an empty buffer while
`safeAppendToBuffer` is false and the phase is not QUERYING (the
`removePublished` assertion). -/
theorem C9_removeMatching_behaviour (cfg : Config) (i : DocId) (s : DState) :
    (cfg.limit ≠ 0 → hHas s.published i = false → hHas s.buffer i = false →
      removeMatching cfg i s = some s) ∧
    (removeMatching cfg i s = none ↔
      (cfg.limit = 0 ∧ hHas s.published i = false) ∨
      (hHas s.published i = true ∧ cfg.limit ≠ 0 ∧
        (hRemove s.published i).length < cfg.limit ∧ s.buffer = [] ∧
        s.safeAppendToBuffer = false ∧ s.phase ≠ Phase.querying)) := by
  constructor
  · intro hl hp hb
    simp [removeMatching, hp, hb, hl]
  · constructor
    · intro hnone
      simp only [removeMatching] at hnone
      split at hnone
      · next hc =>
          simp only [Bool.and_eq_true, Bool.not_eq_true', beq_iff_eq] at hc
          exact Or.inl ⟨hc.2, hc.1⟩
      · next hc =>
          split at hnone
          · next hpub =>
              simp only [removePublished] at hnone
              split at hnone
              · exact absurd hnone (by simp)
              · next hl0 =>
                  split at hnone
                  · next hlen =>
                      split at hnone
                      · next hbe =>
                          split at hnone
                          · next hassert =>
                              simp only [Bool.and_eq_true,
                                Bool.not_eq_true', bne_iff_ne, ne_eq] at hassert
                              refine Or.inr ⟨hpub, by simpa using hl0, by simpa using hlen,
                                by simpa using List.length_eq_zero.mp (by simpa using hbe),
                                hassert.1, hassert.2⟩
                          · exact absurd hnone (by simp)
                      · next hbe =>
                          split at hnone
                          · next hmin =>
                              exfalso
                              have hne : s.buffer ≠ [] := by
                                intro hx
                                rw [hx] at hbe
                                exact hbe (by simp)
                              have := minEltEntry_isSome cfg.cmp s.buffer hne
                              simp only [minElementId] at hmin
                              cases hme : minEltEntry cfg.cmp s.buffer with
                              | none => rw [hme] at this; exact absurd this (by simp)
                              | some e => rw [hme] at hmin; exact absurd hmin (by simp)
                          · next nId hmin =>
                              split at hnone
                              · next hget =>
                                  exfalso
                                  simp only [minElementId] at hmin
                                  cases hme : minEltEntry cfg.cmp s.buffer with
                                  | none => rw [hme] at hmin; exact absurd hmin (by simp)
                                  | some e =>
                                      rw [hme] at hmin
                                      simp only [Option.map_some',
                                        Option.some.injEq] at hmin
                                      have hhase := hHas_of_mem _ e
                                        (minEltEntry_mem cfg.cmp _ e hme)
                                      rw [hmin] at hhase
                                      have := hGet_isSome_of_has s.buffer nId hhase
                                      rw [hget] at this
                                      exact absurd this (by simp)
                              · next nDoc hget =>
                                  exfalso
                                  have hlt : ((removeBuffered cfg nId
                                      { s with
                                        published := hRemove s.published i
                                        out := s.out ++ [Emit.removed i]
                                      }).published).length < cfg.limit := by
                                    rw [removeBuffered_published]
                                    simpa using hlen
                                  have := addPublished_isSome_of_lt cfg nId nDoc
                                    (removeBuffered cfg nId
                                      { s with
                                        published := hRemove s.published i
                                        out := s.out ++ [Emit.removed i] }) hlt
                                  rw [hnone] at this
                                  exact absurd this (by simp)
                  · exact absurd hnone (by simp)
          · split at hnone
            · exact absurd hnone (by simp)
            · exact absurd hnone (by simp)
    · intro hcase
      rcases hcase with ⟨h0, hp⟩ | ⟨hp, hl, hlen, hbe, hsafe, hph⟩
      · simp [removeMatching, hp, h0]
      · simp [removeMatching, hp, removePublished, hl, hlen, hbe, hsafe, hph]

theorem C9_witness : removeMatching cfgL1 99 wC9 = some wC9 :=
  (C9_removeMatching_behaviour cfgL1 99 wC9).1 (by decide) (by decide)
    (by decide)

theorem hSet_append_of_not_has (h : HeapT) (i : DocId) (d : Doc)
    (hh : hHas h i = false) : hSet h i d = h ++ [(i, d)] := by
  simp only [hSet]
  congr 1
  apply List.filter_eq_self.mpr
  intro e he
  have hne : e.1 ≠ i := by
    intro hei
    have hm := hHas_of_mem h e he
    rw [hei, hh] at hm
    exact absurd hm (by simp)
  simp [hne]

theorem maxEltEntry_append_single (cmp : Doc → Doc → Int) (h : HeapT)
    (e : DocId × Doc) :
    maxEltEntry cmp (h ++ [e]) = pickMax cmp (maxEltEntry cmp h) e := by
  simp [maxEltEntry, List.foldl_append]

theorem hGet_append_of_has (h1 h2 : HeapT) (i : DocId)
    (hh : hHas h1 i = true) : hGet (h1 ++ h2) i = hGet h1 i := by
  induction h1 with
  | nil => exact absurd hh (by simp [hHas])
  | cons a t ih =>
      simp only [hGet, List.cons_append, List.find?_cons]
      cases ha : (a.1 == i) with
      | true => rfl
      | false =>
          have hh' : hHas t i = true := by
            simp only [hHas, List.any_cons, ha, Bool.false_or] at hh
            exact hh
          simpa [hGet] using ih hh'

theorem hGet_eq_of_nodup (h : HeapT) (e : DocId × Doc)
    (hnd : (h.map Prod.fst).Nodup) (he : e ∈ h) : hGet h e.1 = some e.2 := by
  induction h with
  | nil => simp at he
  | cons a t ih =>
      rcases List.mem_cons.mp he with rfl | he'
      · simp [hGet]
      · have hnd' : (a.1 :: t.map Prod.fst).Nodup := hnd
        have h1 := List.nodup_cons.mp hnd'
        have hne : (a.1 == e.1) = false := by
          simp only [beq_eq_false_iff_ne, ne_eq]
          intro hei
          apply h1.1
          rw [hei]
          exact List.mem_map_of_mem Prod.fst he'
        have ih' := ih h1.2 he'
        simp only [hGet, List.find?_cons, hne]
        simpa [hGet] using ih'

/-- A limited state (limit 1) holding one published document, empty buffer:
it satisfies both invariants named by the claim. -/
def wC7 : DState := { initState with published := [(1, docN 1 10)] }

/-- C7 counterexample: from a state satisfying `published.size() <= limit`
and `max(published) <= min(buffer)` (vacuous here, the buffer being empty),
`addPublished` with a document sorting above the whole published set still
reaches the "document just added is overflowing" error branch, so that
branch is not unreachable from states satisfying only those two
invariants. -/
theorem C7_counterexample :
    wC7.published.length ≤ cfgL1.limit ∧
    (∀ p ∈ wC7.published, ∀ b ∈ wC7.buffer, cfgL1.cmp p.2 b.2 ≤ 0) ∧
    addPublished cfgL1 2 (docN 2 99) wC7 = none := by
  refine ⟨by decide, ?_, by decide⟩
  intro p hp b hb
  simp [wC7, initState] at hb

/-- C7 (amended): when additionally the guard that every driver call site
establishes holds — `published.size() < limit`, or the new document sorts
strictly below the published maximum — `addPublished` never throws; when the
heap was full and the id fresh, the overflow is exactly one document, the
evicted maximum differs from the just-added id, and the evicted document is
removed with a `removed` emission and handed to `addBuffered`. The heap is
assumed id-nodup, and the comparator is assumed insensitive to the shared
projection (the sort fields are part of the shared projection). -/
theorem C7_addPublished_guarded (cfg : Config) (i : DocId) (d : Doc)
    (s : DState) (hl : cfg.limit ≠ 0)
    (hnd : (s.published.map Prod.fst).Nodup)
    (hb : s.published.length ≤ cfg.limit)
    (hshared : ∀ x y, cfg.cmp (cfg.sharedProjFn x) y = cfg.cmp x y)
    (hguard : s.published.length < cfg.limit ∨
      cmpLt cfg d (heapMaxDoc cfg s.published) = true) :
    ∃ s', addPublished cfg i d s = some s' ∧
      (s.published.length = cfg.limit → hHas s.published i = false →
        ∃ ov, maxEltEntry cfg.cmp s.published = some ov ∧ ov.1 ≠ i ∧
          s' = addBuffered cfg ov.1 ov.2
            { s with
              published :=
                hRemove (hSet s.published i (cfg.sharedProjFn d)) ov.1
              out := s.out ++ [Emit.added i (cfg.projFn (dDelete d "_id")),
                Emit.removed ov.1] }) := by
  by_cases hhas : hHas s.published i = true
  · have hle : (hSet s.published i (cfg.sharedProjFn d)).length ≤ cfg.limit :=
      le_trans (length_hSet_le_of_has _ _ _ hhas) hb
    have hno : (cfg.limit != 0 &&
        decide ((hSet s.published i (cfg.sharedProjFn d)).length >
          cfg.limit)) = false := by
      simp only [Bool.and_eq_false_iff, decide_eq_false_iff_not, not_lt]
      exact Or.inr hle
    refine ⟨{ s with
        published := hSet s.published i (cfg.sharedProjFn d)
        out := s.out ++ [Emit.added i (cfg.projFn (dDelete d "_id"))] },
      ?_, ?_⟩
    · simp only [addPublished, hno, Bool.false_eq_true, if_false]
    · intro _ hfresh
      simp [hfresh] at hhas
  · have hhasF : hHas s.published i = false := by
      cases hx : hHas s.published i with
      | true => exact absurd hx hhas
      | false => rfl
    have hset : hSet s.published i (cfg.sharedProjFn d) =
        s.published ++ [(i, cfg.sharedProjFn d)] :=
      hSet_append_of_not_has s.published i (cfg.sharedProjFn d) hhasF
    have hlen1 : (hSet s.published i (cfg.sharedProjFn d)).length =
        s.published.length + 1 := by
      rw [hset]
      simp
    by_cases hlt : s.published.length < cfg.limit
    · have hle : (hSet s.published i (cfg.sharedProjFn d)).length ≤
          cfg.limit := by omega
      have hno : (cfg.limit != 0 &&
          decide ((hSet s.published i (cfg.sharedProjFn d)).length >
            cfg.limit)) = false := by
        simp only [Bool.and_eq_false_iff, decide_eq_false_iff_not, not_lt]
        exact Or.inr hle
      refine ⟨{ s with
          published := hSet s.published i (cfg.sharedProjFn d)
          out := s.out ++ [Emit.added i (cfg.projFn (dDelete d "_id"))] },
        ?_, ?_⟩
      · simp only [addPublished, hno, Bool.false_eq_true, if_false]
      · intro heq _
        omega
    · have heq : s.published.length = cfg.limit := by omega
      have hguard' : cmpLt cfg d (heapMaxDoc cfg s.published) = true := by
        rcases hguard with hg | hg
        · exact absurd hg hlt
        · exact hg
      have hne : s.published ≠ [] := by
        intro hx
        rw [hx] at heq
        simp at heq
        omega
      cases hme : maxEltEntry cfg.cmp s.published with
      | none =>
          have := maxEltEntry_isSome cfg.cmp s.published hne
          rw [hme] at this
          exact absurd this (by simp)
      | some m0 =>
          have hm0mem : m0 ∈ s.published := maxEltEntry_mem cfg.cmp _ m0 hme
          have hm0get : hGet s.published m0.1 = some m0.2 :=
            hGet_eq_of_nodup s.published m0 hnd hm0mem
          have hmaxdoc : heapMaxDoc cfg s.published = some m0.2 := by
            simp [heapMaxDoc, maxElementId, hme, hm0get]
          have hcmp : cfg.cmp d m0.2 < 0 := by
            rw [hmaxdoc] at hguard'
            simpa [cmpLt] using hguard'
          have hm0ne : m0.1 ≠ i := by
            intro hx
            have := hHas_of_mem s.published m0 hm0mem
            rw [hx, hhasF] at this
            exact absurd this (by simp)
          have hmax1 : maxEltEntry cfg.cmp
              (hSet s.published i (cfg.sharedProjFn d)) = some m0 := by
            rw [hset, maxEltEntry_append_single, hme]
            simp only [pickMax]
            rw [if_neg]
            rw [hshared d m0.2]
            omega
          have hget1 : hGet (hSet s.published i (cfg.sharedProjFn d)) m0.1 =
              some m0.2 := by
            rw [hset, hGet_append_of_has _ _ _ (hHas_of_mem _ m0 hm0mem)]
            exact hm0get
          have hover : (cfg.limit != 0 &&
              decide ((hSet s.published i (cfg.sharedProjFn d)).length >
                cfg.limit)) = true := by
            simp only [Bool.and_eq_true, bne_iff_ne, ne_eq,
              decide_eq_true_eq]
            exact ⟨hl, by omega⟩
          have hone : ((hSet s.published i
              (cfg.sharedProjFn d)).length != cfg.limit + 1) = false := by
            simp only [bne_eq_false_iff_eq]
            omega
          have hm0i : (m0.1 == i) = false := by
            simp [hm0ne]
          refine ⟨addBuffered cfg m0.1 m0.2
            { s with
              published :=
                hRemove (hSet s.published i (cfg.sharedProjFn d)) m0.1
              out := (s.out ++ [Emit.added i (cfg.projFn (dDelete d "_id"))])
                ++ [Emit.removed m0.1] }, ?_, ?_⟩
          · simp only [addPublished, hover, if_true, hone, Bool.false_eq_true,
              if_false, maxElementId, hmax1, Option.map_some', hget1, hm0i]
          · intro _ _
            refine ⟨m0, rfl, hm0ne, ?_⟩
            have hout : (s.out ++
                [Emit.added i (cfg.projFn (dDelete d "_id"))]) ++
                [Emit.removed m0.1] =
                s.out ++ [Emit.added i (cfg.projFn (dDelete d "_id")),
                  Emit.removed m0.1] := by
              simp
            rw [hout]

theorem C7_witness :
    ∃ s', addPublished cfgL1 0 (docN 0 5) wC7 = some s' ∧
      (wC7.published.length = cfgL1.limit → hHas wC7.published 0 = false →
        ∃ ov, maxEltEntry cfgL1.cmp wC7.published = some ov ∧ ov.1 ≠ 0 ∧
          s' = addBuffered cfgL1 ov.1 ov.2
            { wC7 with
              published :=
                hRemove (hSet wC7.published 0 (cfgL1.sharedProjFn (docN 0 5)))
                  ov.1
              out := wC7.out ++
                [Emit.added 0 (cfgL1.projFn (dDelete (docN 0 5) "_id")),
                 Emit.removed ov.1] }) :=
  C7_addPublished_guarded cfgL1 0 (docN 0 5) wC7 (by decide) (by decide)
    (by decide) (fun x y => rfl) (Or.inr (by decide))

end Oplog
